import Mathlib

/-!
Verification development for the CouchDB configuration tooling
(`couchdb-setup.ts`): a script extractor (`parseScript`) and an
INI-style configuration merger (`updateConfig` / `finalizeSection`).

Lines and strings are embedded as `List Char`; the JavaScript runtime
behaviours the code relies on (`String.prototype.trim`, `String.prototype.split`
with a limit, the two regular expressions with their greedy/lazy backtracking,
`Map` insertion-order semantics, plain-object key iteration order) are
modelled explicitly below, each next to the function that uses it.
-/

namespace CouchSetup

/-- A line of text, embedded as its character list. -/
abbrev Line := List Char

/-- The character class `\s` of JavaScript regular expressions, which is also
the set of characters removed by `String.prototype.trim`: space, tab,
newline, carriage return, vertical tab, form feed, no-break space, ogham
space mark, the en-quad to hair-space range, the line and paragraph
separators, the narrow no-break, medium mathematical and ideographic
spaces, and the byte order mark.  Stated on code points. -/
def jsIsWhitespace (c : Char) : Bool :=
  let n := c.toNat
  n = 32 || n = 9 || n = 10 || n = 13 || n = 11 || n = 12 ||
  n = 0xa0 || n = 0x1680 || (0x2000 ≤ n && n ≤ 0x200a) ||
  n = 0x2028 || n = 0x2029 || n = 0x202f || n = 0x205f ||
  n = 0x3000 || n = 0xfeff

/-- The character class `\w` of JavaScript regular expressions:
the ASCII ranges `a`-`z`, `A`-`Z`, `0`-`9` and the underscore.
Stated on code points. -/
def isWordChar (c : Char) : Bool :=
  let n := c.toNat
  (97 ≤ n && n ≤ 122) || (65 ≤ n && n ≤ 90) || (48 ≤ n && n ≤ 57) || n = 95

/-- The character class `[\w\-]` used for config keys. -/
def isKeyChar (c : Char) : Bool :=
  isWordChar c || c = '-'

/-- The character class `[\w\-\/]` used for the `_config` path segment. -/
def isG1Char (c : Char) : Bool :=
  isWordChar c || c = '-' || c = '/'

/-- Line terminators, which the `.` of a JavaScript regular expression
does not match: newline, carriage return, line separator, paragraph
separator.  Stated on code points. -/
def isNlChar (c : Char) : Bool :=
  let n := c.toNat
  n = 10 || n = 13 || n = 0x2028 || n = 0x2029

/-- Removal of trailing whitespace (the second half of `trim`). -/
def jsTrimRight (l : Line) : Line :=
  (l.reverse.dropWhile jsIsWhitespace).reverse

/-- JavaScript `String.prototype.trim` on a character list. -/
def jsTrim (l : Line) : Line :=
  jsTrimRight (l.dropWhile jsIsWhitespace)

/-- Splitting a text on the newline character, as `"...".split("\n")` does. -/
def splitNl (l : List Char) : List Line :=
  match l with
  | [] => [[]]
  | c :: rest =>
      let r := splitNl rest
      if c = '\n' then [] :: r
      else match r with
           | [] => [[c]]
           | x :: xs => (c :: x) :: xs

/-- Joining lines with the newline character, as `lines.join("\n")` does. -/
def joinNl (ls : List Line) : List Char :=
  match ls with
  | [] => []
  | [x] => x
  | x :: y :: rest => x ++ '\n' :: joinNl (y :: rest)

/-- Splitting on the slash character (every occurrence), the basis of
JavaScript `String.prototype.split("/")`. -/
def splitSlash (l : List Char) : List (List Char) :=
  match l with
  | [] => [[]]
  | c :: rest =>
      let r := splitSlash rest
      if c = '/' then [] :: r
      else match r with
           | [] => [[c]]
           | x :: xs => (c :: x) :: xs

/-! ## The key/value regular expression of `finalizeSection`

`finalizeSection` matches each trimmed section line against
`/\;?([\w\-]+)\s*=\s*(\w*)[\s\n]/` and uses only the first capture group
(the key).  The search is unanchored and left-most; inside one start
position the pattern is deterministic up to the tail `\s*(\w*)[\s\n]`,
whose backtracking succeeds exactly when the text after the equals sign
has a decomposition into whitespace, then word characters, then one more
whitespace character. -/

/-- Backtracking success of the regex tail `\s*(\w*)[\s\n]`: the input must
begin with optional whitespace, then word characters, then one whitespace
character.  Because a whitespace head already satisfies the class, this
reduces to: after dropping a word-character run, a whitespace character
follows. -/
def eqTail (l : Line) : Bool :=
  match l.dropWhile isWordChar with
  | [] => false
  | c :: _ => jsIsWhitespace c

/-- One start position of `\;?([\w\-]+)\s*=\s*(\w*)[\s\n]` with the key run
beginning at the head of `l`: the maximal `[\w\-]+` run, maximal `\s*`,
a literal `=`, then `eqTail`.  Returns the captured key. -/
def keyAt (l : Line) : Option Line :=
  let k := l.takeWhile isKeyChar
  if k.isEmpty then none
  else
    match (l.dropWhile isKeyChar).dropWhile jsIsWhitespace with
    | '=' :: rest => if eqTail rest then some k else none
    | _ => none

/-- Left-most unanchored search of the `finalizeSection` regex over a trimmed
line, returning the first capture group (the key).  A leading `;` at a start
position is consumed by `\;?` before the key run. -/
def findKey : Line → Option Line
  | [] => none
  | c :: rest =>
      match (if c = ';' then keyAt rest else keyAt (c :: rest)) with
      | some k => some k
      | none => findKey rest

/-! ## The curl-command regular expression of `parseScript`

`parseScript` matches each trimmed script line against
`/curl.*\/_node\/nonode@nohost\/_config\/([\w\-\/]+).*?-d\s+\'\"(.*?)\"\'.*$/i`
and uses both capture groups.  The implementation below follows the
backtracking priorities of the JavaScript engine: left-most start,
greedy `.*` before the `_config` literal (latest occurrence first),
greedy `([\w\-\/]+)` (longest first), lazy `.*?` before `-d`
(earliest first), greedy `\s+`, lazy `(.*?)` for the value
(shortest first), and a final `.*$` that only accepts a tail free of
line terminators. -/

/-- Lower-casing of ASCII letters, the case folding relevant to the
case-insensitive literals of the pattern (all of which are ASCII). -/
def asciiLower (c : Char) : Char :=
  if 'A' ≤ c && c ≤ 'Z' then Char.ofNat (c.toNat + 32) else c

/-- Case-insensitive character comparison, as under the `i` flag. -/
def ciEq (a b : Char) : Bool :=
  asciiLower a = asciiLower b

/-- Strips a case-insensitive literal prefix, returning the remainder. -/
def ciStrip : List Char → List Char → Option (List Char)
  | [], s => some s
  | _ :: _, [] => none
  | p :: ps, c :: cs => if ciEq p c then ciStrip ps cs else none

/-- The single quote character (used to build the `-d '"..."'` literals). -/
def sq : Char := '\''

/-- The literal `/_node/nonode@nohost/_config/` from the pattern. -/
def configLit : List Char := "/_node/nonode@nohost/_config/".data

/-- The literal `curl` from the pattern. -/
def curlLit : List Char := "curl".data

/-- Lazy group 2: `(.*?)\"\'` followed by `.*$`.  Tries the shortest value
first; a candidate closing `"'` is accepted only if the remaining tail
contains no line terminator (otherwise `.*$` fails and the value extends). -/
def findG2 : List Char → Option (List Char)
  | [] => none
  | c :: rest =>
      match c, rest with
      | '"', q :: rest2 =>
          if q = sq && rest2.all (fun d => !isNlChar d) then some []
          else if isNlChar c then none
          else (findG2 rest).map (c :: ·)
      | _, _ =>
          if isNlChar c then none
          else (findG2 rest).map (c :: ·)

/-- Lazy `.*?` then `-d\s+\'\"` then group 2: scans forward for the earliest
`-d` (case-insensitive) whose continuation matches; `.*?` cannot cross a
line terminator. -/
def afterG1 : List Char → Option (List Char)
  | [] => none
  | c :: rest =>
      let tryHere : Option (List Char) :=
        match ciStrip ['-', 'd'] (c :: rest) with
        | some after =>
            let ws := after.takeWhile jsIsWhitespace
            if ws.isEmpty then none
            else
              match after.dropWhile jsIsWhitespace with
              | q1 :: '"' :: r => if q1 = sq then findG2 r else none
              | _ => none
        | none => none
      match tryHere with
      | some v => some v
      | none => if isNlChar c then none else afterG1 rest

/-- Greedy group 1 `([\w\-\/]+)`: the first argument is the reversed
candidate run; the longest candidate is tried first, shrinking from the
right on failure, with removed characters handed to the lazy `.*?`. -/
def tryG1 : List Char → List Char → Option (List Char × List Char)
  | [], _ => none
  | c :: rs, tail =>
      match afterG1 tail with
      | some v => some ((c :: rs).reverse, v)
      | none => tryG1 rs (c :: tail)

/-- Greedy `.*` then the `_config` literal then group 1: occurrences of the
literal are tried latest-first, and `.*` cannot cross a line terminator. -/
def searchL : List Char → Option (List Char × List Char)
  | [] => none
  | c :: rest =>
      match (if isNlChar c then none else searchL rest) with
      | some r => some r
      | none =>
          match ciStrip configLit (c :: rest) with
          | some after =>
              let run := after.takeWhile isG1Char
              tryG1 run.reverse (after.dropWhile isG1Char)
          | none => none

/-- Left-most search for the `curl` literal; on a failed continuation the
start position advances by one character, as in the engine. -/
def findCurl : List Char → Option (List Char × List Char)
  | [] => none
  | c :: rest =>
      match ciStrip curlLit (c :: rest) with
      | some after =>
          match searchL after with
          | some r => some r
          | none => findCurl rest
      | none => findCurl rest

/-- Represents a single CouchDB setting, as in the source interface
`Setting { section, key, value }`. -/
structure Setting where
  «section» : Line
  key : Line
  value : Line
deriving DecidableEq, Repr

/-- Builds a `Setting` from the two capture groups, following
`const [section, key] = fullKey.split("/", 2)`: a JavaScript split with a
limit keeps only the first two fragments, so everything after the second
slash is dropped.  When the full key has no slash the source binds `key`
to `undefined`; that degenerate case is represented by the empty list here
and is not relied on by any theorem. -/
def settingOfFullKey (fullKey value : List Char) : Setting :=
  let parts := (splitSlash fullKey).take 2
  { «section» := parts.headD [], key := (parts.drop 1).headD [], value := value }

/-- The per-line extraction of `parseScript`: trim the line, run the curl
pattern, and build a `Setting` from the captures. -/
def lineSetting (line : Line) : Option Setting :=
  match findCurl (jsTrim line) with
  | some (fullKey, value) => some (settingOfFullKey fullKey value)
  | none => none

/-- The pure content of `parseScript`: split the script into lines and
collect one `Setting` per recognized line, in file order. -/
def parseScript (content : List Char) : List Setting :=
  (splitNl content).filterMap lineSetting

/-! ## JavaScript `Map` with string keys

`finalizeSection` keeps its remaining settings in a
`Map<string, Setting>` built from an entry list; a JavaScript `Map`
iterates in insertion order, `set` on a present key updates the value in
place, and `delete` removes the entry. -/

/-- An insertion-ordered map from keys to settings. -/
abbrev JMap := List (Line × Setting)

/-- JavaScript `Map.prototype.get` (also serving as `has`). -/
def mapGet (m : JMap) (k : Line) : Option Setting :=
  match m with
  | [] => none
  | (a, v) :: rest => if a = k then some v else mapGet rest k

/-- JavaScript `Map.prototype.set`: update in place or append at the end. -/
def mapSet (m : JMap) (k : Line) (v : Setting) : JMap :=
  match m with
  | [] => [(k, v)]
  | (a, w) :: rest => if a = k then (a, v) :: rest else (a, w) :: mapSet rest k v

/-- JavaScript `Map.prototype.delete`: remove the entry with the key. -/
def mapDelete (m : JMap) (k : Line) : JMap :=
  match m with
  | [] => []
  | (a, w) :: rest => if a = k then rest else (a, w) :: mapDelete rest k

/-- The map `new Map(settings.map((s) => [s.key, s]))`. -/
def buildMap (ss : List Setting) : JMap :=
  ss.foldl (fun m s => mapSet m s.key s) []

/-! ## Plain-object record keyed by section name

`updateConfig` groups incoming settings in a
`Record<string, Setting[]>`; `for...in` iterates array-index-like keys
first in ascending numeric order, then the remaining string keys in
insertion order. -/

/-- An insertion-ordered record from section names to setting lists. -/
abbrev Rec := List (Line × List Setting)

/-- Record lookup (`sectionSettings[section]`, `undefined` as `none`). -/
def recLookup (r : Rec) (k : Line) : Option (List Setting) :=
  match r with
  | [] => none
  | (a, v) :: rest => if a = k then some v else recLookup rest k

/-- Record deletion (`delete sectionSettings[section]`). -/
def recErase (r : Rec) (k : Line) : Rec :=
  match r with
  | [] => []
  | (a, v) :: rest => if a = k then rest else (a, v) :: recErase rest k

/-- Appending one setting to its section group, creating the group on first
use (`if (!sectionSettings[section]) sectionSettings[section] = []; ...push`). -/
def recPush (r : Rec) (k : Line) (s : Setting) : Rec :=
  match r with
  | [] => [(k, [s])]
  | (a, v) :: rest => if a = k then (a, v ++ [s]) :: rest else (a, v) :: recPush rest k s

/-- Grouping of the incoming settings by section, in encounter order. -/
def groupBySection (settings : List Setting) : Rec :=
  settings.foldl (fun r s => recPush r s.«section» s) []

/-- Decimal digit test, stated on code points. -/
def isDigitChar (c : Char) : Bool := 48 ≤ c.toNat && c.toNat ≤ 57

/-- Numeric value of a digit list (most significant first). -/
def digitsVal (l : List Char) : Nat :=
  l.foldl (fun n c => n * 10 + (c.toNat - '0'.toNat)) 0

/-- A canonical array-index key: a decimal numeral without leading zeros
whose value is below 2^32 - 1.  Such keys are enumerated first, in
ascending numeric order, by `for...in`. -/
def arrayIndexKey (l : Line) : Option Nat :=
  if l ≠ [] && l.all isDigitChar && (l = ['0'] || l.headD '0' ≠ '0') &&
     digitsVal l < 4294967295 then
    some (digitsVal l)
  else none

/-- Ascending stable insertion by `arrayIndexKey` value. -/
def insertByIdx (x : Line × List Setting) : Rec → Rec
  | [] => [x]
  | y :: rest =>
      if (arrayIndexKey x.1).getD 0 < (arrayIndexKey y.1).getD 0 then x :: y :: rest
      else y :: insertByIdx x rest

/-- Insertion sort by `arrayIndexKey` value. -/
def sortByIdx : Rec → Rec
  | [] => []
  | x :: rest => insertByIdx x (sortByIdx rest)

/-- The `for...in` enumeration order over a record: array-index-like keys
ascending first, then the remaining keys in insertion order. -/
def forInOrder (r : Rec) : Rec :=
  sortByIdx (r.filter (fun e => (arrayIndexKey e.1).isSome)) ++
    r.filter (fun e => !(arrayIndexKey e.1).isSome)

/-! ## The merger -/

/-- The literal `" = "` inserted between a key and a value when a line is
written by the merger. -/
def eqSep : List Char := " = ".data

/-- The line `key = value` pushed by the merger. -/
def settingLine (s : Setting) : Line :=
  s.key ++ eqSep ++ s.value

/-- The header line `[section]` pushed for a new section. -/
def headerLine (n : Line) : Line :=
  '[' :: (n ++ [']'])

/-- Header detection on a trimmed line:
`trimmed.startsWith("[") && trimmed.endsWith("]")`. -/
def isHeader (t : Line) : Bool :=
  t.headD ' ' = '[' && t.getLastD ' ' = ']'

/-- The section name `trimmed.slice(1, -1)` of a header line. -/
def headerName (t : Line) : Line :=
  t.tail.dropLast

/-- The line scan of `finalizeSection`: for each section line, if the
trimmed line matches the key regex and the captured key is in the
remaining map, emit `key = newValue` and delete the key; otherwise emit
the line unchanged.  Returns the emitted lines and the remaining map. -/
def processSec (remaining : JMap) : List Line → List Line × JMap
  | [] => ([], remaining)
  | line :: rest =>
      match findKey (jsTrim line) with
      | some k =>
          match mapGet remaining k with
          | some s =>
              let r := processSec (mapDelete remaining k) rest
              ((k ++ eqSep ++ s.value) :: r.1, r.2)
          | none =>
              let r := processSec remaining rest
              (line :: r.1, r.2)
      | none =>
          let r := processSec remaining rest
          (line :: r.1, r.2)

/-- The source `finalizeSection`, returning the lines it pushes: with no
settings the section is copied verbatim; otherwise matched keys are
rewritten and the still-remaining settings are appended as `key = value`
lines in map order. -/
def finalizeSection (sectionLines : List Line) (settings : Option (List Setting)) :
    List Line :=
  match settings with
  | none => sectionLines
  | some ss =>
      if ss.isEmpty then sectionLines
      else
        let r := processSec (buildMap ss) sectionLines
        r.1 ++ r.2.map (fun e => e.2.key ++ eqSep ++ e.2.value)

/-- The block appended for one absent section: its header line followed by
one `key = value` line per setting (nothing for an empty group). -/
def blockOf (e : Line × List Setting) : List Line :=
  if e.2.isEmpty then [] else headerLine e.1 :: e.2.map settingLine

/-- The blocks appended for sections absent from the file, in `for...in`
order. -/
def appendNew (pending : Rec) : List Line :=
  (forInOrder pending).flatMap blockOf

/-- The line walk of `updateConfig`: `pending` is the outstanding
section-to-settings record, `cur` the current section name (empty before
any header), `secLines` the buffered lines of the current section. -/
def walk (pending : Rec) (cur : Line) (secLines : List Line) : List Line → List Line
  | [] =>
      if cur.isEmpty then appendNew pending
      else
        finalizeSection secLines (recLookup pending cur) ++
          appendNew (recErase pending cur)
  | line :: rest =>
      let t := jsTrim line
      if isHeader t then
        (if cur.isEmpty then [] else finalizeSection secLines (recLookup pending cur)) ++
          line :: walk (if cur.isEmpty then pending else recErase pending cur)
                        (headerName t) [] rest
      else if cur.isEmpty then
        line :: walk pending cur secLines rest
      else
        walk pending cur (secLines ++ [line]) rest

/-- The in-memory transformation of `updateConfig`: group the settings by
section, walk the file lines, and append blocks for sections never
encountered. -/
def updateConfigLines (fileLines : List Line) (settings : List Setting) : List Line :=
  walk (groupBySection settings) [] [] fileLines

/-! ## Decompositions of the walk, used to state positional properties -/

/-- The walk without its final appended blocks: everything the merger emits
for the original file content (preamble, headers, finalized sections). -/
def walkMain (pending : Rec) (cur : Line) (secLines : List Line) : List Line → List Line
  | [] =>
      if cur.isEmpty then []
      else finalizeSection secLines (recLookup pending cur)
  | line :: rest =>
      let t := jsTrim line
      if isHeader t then
        (if cur.isEmpty then [] else finalizeSection secLines (recLookup pending cur)) ++
          line :: walkMain (if cur.isEmpty then pending else recErase pending cur)
                            (headerName t) [] rest
      else if cur.isEmpty then
        line :: walkMain pending cur secLines rest
      else
        walkMain pending cur (secLines ++ [line]) rest

/-- The outstanding record after the walk: the grouped settings minus every
section finalized along the way. -/
def pendAfter (pending : Rec) (cur : Line) : List Line → Rec
  | [] => if cur.isEmpty then pending else recErase pending cur
  | line :: rest =>
      let t := jsTrim line
      if isHeader t then
        pendAfter (if cur.isEmpty then pending else recErase pending cur)
                  (headerName t) rest
      else pendAfter pending cur rest

/-- The walk as a state transformer over a line segment: emitted output and
final state, used to compute the merger over a file split into segments. -/
def walkSt (pending : Rec) (cur : Line) (secLines : List Line) :
    List Line → List Line × Rec × Line × List Line
  | [] => ([], pending, cur, secLines)
  | line :: rest =>
      let t := jsTrim line
      if isHeader t then
        let emitted :=
          (if cur.isEmpty then [] else finalizeSection secLines (recLookup pending cur)) ++
            [line]
        let r := walkSt (if cur.isEmpty then pending else recErase pending cur)
                        (headerName t) [] rest
        (emitted ++ r.1, r.2)
      else if cur.isEmpty then
        let r := walkSt pending cur secLines rest
        (line :: r.1, r.2)
      else
        walkSt pending cur (secLines ++ [line]) rest

/-! ## The preserved lines of a file (frame property) -/

/-- The keys desired for a section, read off the grouped settings. -/
def desiredKeys (g : Rec) (sec : Line) : List Line :=
  match recLookup g sec with
  | none => []
  | some ss => ss.map Setting.key

/-- A line the frame property claims is preserved: a header line, a line
outside any section, or a line whose trimmed text does not capture a key
desired for the section containing it. -/
def presLine (g : Rec) (sec : Line) (l : Line) : Bool :=
  isHeader (jsTrim l) || sec.isEmpty ||
    (match findKey (jsTrim l) with
     | none => true
     | some k => !(desiredKeys g sec).contains k)

/-- The sublist of file lines the frame property speaks about, tracking the
section each line belongs to exactly as the walk does. -/
def presGo (g : Rec) (cur : Line) : List Line → List Line
  | [] => []
  | l :: rest =>
      let t := jsTrim l
      if isHeader t then l :: presGo g (headerName t) rest
      else if presLine g cur l then l :: presGo g cur rest
      else presGo g cur rest

/-- The lines of the original file that the frame property claims survive
byte-for-byte and in order. -/
def preservedLines (settings : List Setting) (fileLines : List Line) : List Line :=
  presGo (groupBySection settings) [] fileLines

/-! ## Duplicate settings and the last-occurrence transformation -/

/-- Two settings address the same configuration slot. -/
def sameSlot (s t : Setting) : Bool :=
  s.«section» == t.«section» && s.key == t.key

/-- The value of the last setting for a slot, starting from a default. -/
def lastVal (s : Setting) (l : List Setting) : Line :=
  l.foldl (fun v t => if sameSlot s t then t.value else v) s.value

/-- Collapsing duplicate `(section, key)` slots: each slot keeps its first
position and receives the value of its last occurrence, matching the
overwrite-in-place behaviour of a JavaScript `Map`. -/
def dedupSettings : List Setting → List Setting
  | [] => []
  | s :: rest =>
      { s with value := lastVal s rest } ::
        dedupSettings (rest.filter (fun t => !sameSlot s t))
termination_by l => l.length
decreasing_by
  simp only [List.length_cons]
  exact Nat.lt_succ_of_le (List.length_filter_le _ _)

/-- Two optional setting groups that drive `finalizeSection` identically:
both absent, or both present with the same settings map and the same
emptiness. -/
def relVal : Option (List Setting) → Option (List Setting) → Prop
  | none, none => True
  | some ss, some ss2 => buildMap ss = buildMap ss2 ∧ (ss = [] ↔ ss2 = [])
  | _, _ => False

/-! ## Filesystem model for the error behaviour

The two entry points guard their reads with `fs.existsSync` and throw when
the file is missing; the top-level `try`/`catch` stops the run on the first
error, so a failing run performs no write at all.  The filesystem is
modelled as an association list from paths to contents. -/

/-- A filesystem: a finite map from paths to file contents. -/
abbrev Fs := List (List Char × List Char)

/-- Reading a file, `none` when it does not exist. -/
def fsRead (fs : Fs) (p : List Char) : Option (List Char) :=
  match fs with
  | [] => none
  | (a, c) :: rest => if a = p then some c else fsRead rest p

/-- Overwriting (or creating) a file. -/
def fsWrite (fs : Fs) (p c : List Char) : Fs :=
  match fs with
  | [] => [(p, c)]
  | (a, d) :: rest => if a = p then (a, c) :: rest else (a, d) :: fsWrite rest p c

/-- The effectful `parseScript`: throws when the script file is missing,
otherwise extracts the settings from its content. -/
def parseScriptRun (fs : Fs) (p : List Char) : Except Unit (List Setting) :=
  match fsRead fs p with
  | none => .error ()
  | some content => .ok (parseScript content)

/-- The effectful `updateConfig`: throws when the target file is missing,
otherwise reads it, merges, and writes the joined result back in a single
write. -/
def updateConfigRun (fs : Fs) (p : List Char) (settings : List Setting) :
    Except Unit Fs :=
  match fsRead fs p with
  | none => .error ()
  | some content =>
      .ok (fsWrite fs p (joinNl (updateConfigLines (splitNl content) settings)))

/-- The top-level script execution: extract, then merge, stopping at the
first error with the filesystem untouched. -/
def runSetup (fs : Fs) (scriptPath configPath : List Char) : Fs :=
  match parseScriptRun fs scriptPath with
  | .error _ => fs
  | .ok settings =>
      match updateConfigRun fs configPath settings with
      | .error _ => fs
      | .ok fs2 => fs2

/-! ## Well-formedness of settings -/

/-- A setting of the shape the extractor produces from well-formed scripts:
nonempty section, nonempty key of key characters, and a value containing a
visible character. -/
def goodSetting (s : Setting) : Bool :=
  !s.«section».isEmpty && !s.key.isEmpty && s.key.all isKeyChar &&
    s.value.any (fun c => !jsIsWhitespace c)

/-- Entries of a remaining-settings map written from well-formed settings:
the stored setting carries the entry key, which is a nonempty run of key
characters, and its value shows a visible character. -/
def GoodMap (m : JMap) : Prop :=
  ∀ e ∈ m, e.2.key = e.1 ∧ e.1 ≠ [] ∧ (∀ c ∈ e.1, isKeyChar c = true) ∧
    e.2.value.any (fun c => !jsIsWhitespace c) = true

/-- Entries of a grouped-settings record built from well-formed settings:
nonempty section name, a nonempty group of well-formed settings with
pairwise distinct keys. -/
def GoodRec (r : Rec) : Prop :=
  ∀ e ∈ r, e.1 ≠ [] ∧ e.2 ≠ [] ∧ (∀ s ∈ e.2, goodSetting s = true) ∧
    (e.2.map Setting.key).Nodup

/-! # Lemmas -/

/-! ## Character classes -/

theorem keyChar_not_ws {c : Char} (h : isKeyChar c = true) : jsIsWhitespace c = false := by
  by_cases hd : c = '-'
  · subst hd; decide
  · have hw : isWordChar c = true := by
      simpa [isKeyChar, hd] using h
    simp only [isWordChar, Bool.or_eq_true, Bool.and_eq_true, decide_eq_true_eq] at hw
    simp only [jsIsWhitespace, Bool.or_eq_false_iff, Bool.and_eq_false_iff,
      decide_eq_false_iff_not]
    omega

theorem keyChar_ne_semi {c : Char} (h : isKeyChar c = true) : ¬(c = ';') := by
  intro he; subst he; simp [isKeyChar, isWordChar] at h

theorem keyChar_ne_lbrack {c : Char} (h : isKeyChar c = true) : ¬(c = '[') := by
  intro he; subst he; simp [isKeyChar, isWordChar] at h

/-! ## List helpers -/

theorem takeWhile_append_all {p : Char → Bool} {a b : List Char}
    (h : ∀ c ∈ a, p c = true) :
    (a ++ b).takeWhile p = a ++ b.takeWhile p := by
  induction a with
  | nil => simp
  | cons x xs ih =>
      simp [List.takeWhile_cons, h x (by simp), ih (fun c hc => h c (by simp [hc]))]

theorem dropWhile_append_all {p : Char → Bool} {a b : List Char}
    (h : ∀ c ∈ a, p c = true) :
    (a ++ b).dropWhile p = b.dropWhile p := by
  induction a with
  | nil => simp
  | cons x xs ih =>
      simp [List.dropWhile_cons, h x (by simp), ih (fun c hc => h c (by simp [hc]))]

theorem dropWhile_append_of_ne_nil {p : Char → Bool} {a b : List Char}
    (h : a.dropWhile p ≠ []) :
    (a ++ b).dropWhile p = a.dropWhile p ++ b := by
  induction a with
  | nil => simp at h
  | cons x xs ih =>
      by_cases hx : p x = true
      · simp only [List.cons_append, List.dropWhile_cons, hx, if_pos] at *
        exact ih h
      · simp only [Bool.not_eq_true] at hx
        simp [List.dropWhile_cons, hx]

theorem dropWhile_ne_nil_of_any {p : Char → Bool} {a : List Char}
    (h : a.any (fun c => !p c) = true) : a.dropWhile p ≠ [] := by
  induction a with
  | nil => simp at h
  | cons x xs ih =>
      simp only [List.any_cons, Bool.or_eq_true] at h
      by_cases hx : p x = true
      · simp only [List.dropWhile_cons, hx, if_pos]
        rcases h with h | h
        · simp [hx] at h
        · exact ih h
      · simp only [Bool.not_eq_true] at hx
        simp [List.dropWhile_cons, hx]

/-! ## Trim -/

theorem jsTrim_cons_of_not_ws {c : Char} {l : Line} (h : jsIsWhitespace c = false) :
    jsTrim (c :: l) = jsTrimRight (c :: l) := by
  simp [jsTrim, List.dropWhile_cons, h]

theorem jsTrimRight_append_of_last {a b : Line}
    (h : b.reverse.dropWhile jsIsWhitespace ≠ []) :
    jsTrimRight (a ++ b) = a ++ jsTrimRight b := by
  simp only [jsTrimRight, List.reverse_append]
  rw [dropWhile_append_of_ne_nil h, List.reverse_append, List.reverse_reverse]

theorem jsTrim_keep {a b : Char} {m : Line}
    (ha : jsIsWhitespace a = false) (hb : jsIsWhitespace b = false) :
    jsTrim (a :: (m ++ [b])) = a :: (m ++ [b]) := by
  rw [jsTrim_cons_of_not_ws ha]
  have : (a :: (m ++ [b])) = (a :: m) ++ [b] := by simp
  rw [this, jsTrimRight_append_of_last (by simp [List.dropWhile_cons, hb])]
  simp [jsTrimRight, List.dropWhile_cons, hb]

/-- Trim of a line the merger writes: leading characters are key characters
and the value contains a visible character, so only trailing whitespace of
the value is removed. -/
theorem jsTrim_settingLine {k v : Line} (hk1 : k ≠ [])
    (hk2 : ∀ c ∈ k, isKeyChar c = true)
    (hv : v.any (fun c => !jsIsWhitespace c) = true) :
    jsTrim (k ++ eqSep ++ v) = k ++ eqSep ++ jsTrimRight v := by
  obtain ⟨c, k2, rfl⟩ := List.exists_cons_of_ne_nil hk1
  have hc : jsIsWhitespace c = false := keyChar_not_ws (hk2 c (by simp))
  have hvr : v.reverse.dropWhile jsIsWhitespace ≠ [] :=
    dropWhile_ne_nil_of_any (by simpa using hv)
  have h1 : (c :: k2) ++ eqSep ++ v = c :: (k2 ++ eqSep ++ v) := by simp
  rw [h1, jsTrim_cons_of_not_ws hc]
  have h2 : c :: (k2 ++ eqSep ++ v) = (c :: (k2 ++ eqSep)) ++ v := by simp
  rw [h2, jsTrimRight_append_of_last hvr]
  simp

theorem jsTrimRight_ne_nil_of_any {v : Line}
    (hv : v.any (fun c => !jsIsWhitespace c) = true) : jsTrimRight v ≠ [] := by
  have hvr : v.reverse.dropWhile jsIsWhitespace ≠ [] :=
    dropWhile_ne_nil_of_any (by simpa using hv)
  intro h
  apply hvr
  simpa [jsTrimRight] using congrArg List.reverse h

/-! ## The key regex on merger-written lines -/

theorem findKey_cons_keyChar {c : Char} {l : Line} (h : isKeyChar c = true) :
    findKey (c :: l) =
      match keyAt (c :: l) with
      | some k => some k
      | none => findKey l := by
  rw [findKey]
  simp [if_neg (keyChar_ne_semi h)]

/-- The merger writes `key = value`; on re-reading, the key regex captures
exactly that key. -/
theorem findKey_settingLine {k v : Line} (hk1 : k ≠ [])
    (hk2 : ∀ c ∈ k, isKeyChar c = true)
    (hv : v.any (fun c => !jsIsWhitespace c) = true) :
    findKey (jsTrim (k ++ eqSep ++ v)) = some k := by
  rw [jsTrim_settingLine hk1 hk2 hv]
  obtain ⟨c, k2, rfl⟩ := List.exists_cons_of_ne_nil hk1
  have hgroup : (c :: k2) ++ eqSep ++ jsTrimRight v =
      c :: (k2 ++ (eqSep ++ jsTrimRight v)) := by simp
  rw [hgroup, findKey_cons_keyChar (hk2 c (by simp))]
  have hck : c :: (k2 ++ (eqSep ++ jsTrimRight v)) =
      (c :: k2) ++ (eqSep ++ jsTrimRight v) := by simp
  have htake : ((c :: k2) ++ (eqSep ++ jsTrimRight v)).takeWhile isKeyChar = c :: k2 := by
    rw [takeWhile_append_all (fun d hd => hk2 d hd)]
    have : eqSep ++ jsTrimRight v = ' ' :: ('=' :: ' ' :: jsTrimRight v) := rfl
    rw [this, List.takeWhile_cons]
    simp [isKeyChar, isWordChar]
  have hdrop : ((c :: k2) ++ (eqSep ++ jsTrimRight v)).dropWhile isKeyChar =
      eqSep ++ jsTrimRight v := by
    rw [dropWhile_append_all (fun d hd => hk2 d hd)]
    have : eqSep ++ jsTrimRight v = ' ' :: ('=' :: ' ' :: jsTrimRight v) := rfl
    rw [this, List.dropWhile_cons]
    simp [isKeyChar, isWordChar]
  have hws : (eqSep ++ jsTrimRight v).dropWhile jsIsWhitespace =
      '=' :: (' ' :: jsTrimRight v) := by
    have : eqSep ++ jsTrimRight v = ' ' :: ('=' :: ' ' :: jsTrimRight v) := rfl
    rw [this, List.dropWhile_cons]
    simp [jsIsWhitespace, List.dropWhile_cons]
  have he : eqTail (' ' :: jsTrimRight v) = true := by
    rw [eqTail, List.dropWhile_cons]
    simp [isWordChar, jsIsWhitespace]
  rw [hck, keyAt, htake, hdrop, hws]
  simp [he]

/-! ## Header lines -/

theorem jsTrim_headerLine (n : Line) : jsTrim (headerLine n) = headerLine n := by
  have : headerLine n = '[' :: (n ++ [']']) := rfl
  rw [this, jsTrim_keep (by decide) (by decide)]

theorem isHeader_headerLine (n : Line) : isHeader (headerLine n) = true := by
  simp only [isHeader, Bool.and_eq_true, decide_eq_true_eq]
  refine ⟨rfl, ?_⟩
  show (('[' :: n) ++ [']']).getLastD ' ' = ']'
  rw [List.getLastD_concat]

theorem headerName_headerLine (n : Line) : headerName (headerLine n) = n := by
  simp [headerName, headerLine, List.dropLast_concat]

theorem settingLine_not_header {k v : Line} (hk1 : k ≠ [])
    (hk2 : ∀ c ∈ k, isKeyChar c = true)
    (hv : v.any (fun c => !jsIsWhitespace c) = true) :
    isHeader (jsTrim (k ++ eqSep ++ v)) = false := by
  rw [jsTrim_settingLine hk1 hk2 hv]
  obtain ⟨c, k2, rfl⟩ := List.exists_cons_of_ne_nil hk1
  simp only [isHeader, List.cons_append, List.headD_cons]
  have : ¬(c = '[') := keyChar_ne_lbrack (hk2 c (by simp))
  simp [this]

/-! ## Error behaviour lemmas -/

theorem parseScriptRun_error_iff (fs : Fs) (p : List Char) :
    parseScriptRun fs p = Except.error () ↔ fsRead fs p = none := by
  cases h : fsRead fs p <;> simp [parseScriptRun, h]

theorem updateConfigRun_error_iff (fs : Fs) (p : List Char) (settings : List Setting) :
    updateConfigRun fs p settings = Except.error () ↔ fsRead fs p = none := by
  cases h : fsRead fs p <;> simp [updateConfigRun, h]

theorem runSetup_frame (fs : Fs) (sp cp : List Char)
    (h : fsRead fs sp = none ∨ fsRead fs cp = none) :
    runSetup fs sp cp = fs := by
  rcases h with h | h
  · simp [runSetup, parseScriptRun, h]
  · cases hs : fsRead fs sp
    · simp [runSetup, parseScriptRun, hs]
    · simp [runSetup, parseScriptRun, hs, updateConfigRun, h]

/-! ## Record and map structure lemmas -/

/-- Keys of a record, in order. -/
def recKeys (r : Rec) : List Line := r.map Prod.fst

/-- A record has no duplicate keys. -/
def NodupKeys (r : Rec) : Prop := (recKeys r).Nodup

theorem recKeys_recPush (r : Rec) (k : Line) (s : Setting) :
    recKeys (recPush r k s) = if k ∈ recKeys r then recKeys r else recKeys r ++ [k] := by
  induction r with
  | nil => simp [recPush, recKeys]
  | cons e rest ih =>
      obtain ⟨a, v⟩ := e
      by_cases hak : a = k
      · subst hak
        simp [recPush, recKeys]
      · simp only [recPush, if_neg hak, recKeys, List.map_cons] at *
        rw [ih]
        by_cases hk : k ∈ rest.map Prod.fst
        · simp [hk, Ne.symm hak]
        · simp [hk, Ne.symm hak]

theorem nodupKeys_recPush {r : Rec} (k : Line) (s : Setting) (h : NodupKeys r) :
    NodupKeys (recPush r k s) := by
  unfold NodupKeys
  rw [recKeys_recPush]
  by_cases hk : k ∈ recKeys r
  · rw [if_pos hk]; exact h
  · rw [if_neg hk, List.nodup_append]
    refine ⟨h, List.nodup_singleton k, ?_⟩
    intro a ha hk2
    simp only [List.mem_singleton] at hk2
    exact hk (hk2 ▸ ha)

theorem nodupKeys_foldl_recPush (S : List Setting) (r : Rec) (h : NodupKeys r) :
    NodupKeys (S.foldl (fun r s => recPush r s.«section» s) r) := by
  induction S generalizing r with
  | nil => exact h
  | cons s rest ih => exact ih _ (nodupKeys_recPush _ _ h)

theorem nodupKeys_groupBySection (S : List Setting) : NodupKeys (groupBySection S) :=
  nodupKeys_foldl_recPush S [] (by simp [NodupKeys, recKeys])

theorem recLookup_eq_none_of_not_mem {r : Rec} {k : Line} (h : k ∉ recKeys r) :
    recLookup r k = none := by
  induction r with
  | nil => rfl
  | cons e rest ih =>
      obtain ⟨a, v⟩ := e
      simp only [recKeys, List.map_cons, List.mem_cons, not_or] at h
      simp [recLookup, Ne.symm h.1, ih (by simpa [recKeys] using h.2)]

theorem recLookup_recErase_of_nodup {r : Rec} {k n : Line} {v : List Setting}
    (hn : NodupKeys r) (h : recLookup (recErase r k) n = some v) :
    recLookup r n = some v := by
  induction r with
  | nil => simpa [recErase] using h
  | cons e rest ih =>
      obtain ⟨a, w⟩ := e
      simp only [NodupKeys, recKeys, List.map_cons, List.nodup_cons] at hn
      by_cases hak : a = k
      · subst hak
        rw [recErase, if_pos rfl] at h
        by_cases han : a = n
        · subst han
          rw [recLookup_eq_none_of_not_mem (by simpa [recKeys] using hn.1)] at h
          exact absurd h (by simp)
        · simp [recLookup, han, h]
      · rw [recErase, if_neg hak] at h
        by_cases han : a = n
        · subst han
          simpa [recLookup] using h
        · rw [recLookup, if_neg han] at h
          have hn2 : NodupKeys rest := by
            simpa [NodupKeys, recKeys] using hn.2
          simpa [recLookup, han] using ih hn2 h

theorem recKeys_recErase_subset (r : Rec) (k : Line) :
    recKeys (recErase r k) ⊆ recKeys r := by
  induction r with
  | nil => simp [recErase]
  | cons e rest ih =>
      obtain ⟨a, v⟩ := e
      by_cases hak : a = k
      · subst hak
        simp only [recErase, if_pos rfl, recKeys, List.map_cons]
        exact List.subset_cons_of_subset _ (List.Subset.refl _)
      · simp only [recErase, if_neg hak, recKeys, List.map_cons]
        exact List.cons_subset_cons _ ih

theorem nodupKeys_recErase {r : Rec} (k : Line) (h : NodupKeys r) :
    NodupKeys (recErase r k) := by
  induction r with
  | nil => simpa [recErase] using h
  | cons e rest ih =>
      obtain ⟨a, w⟩ := e
      simp only [NodupKeys, recKeys, List.map_cons, List.nodup_cons] at h
      by_cases hak : a = k
      · subst hak
        simpa [recErase, NodupKeys] using h.2
      · simp only [recErase, if_neg hak, NodupKeys, recKeys, List.map_cons, List.nodup_cons]
        refine ⟨fun hm => h.1 (recKeys_recErase_subset rest k hm), ?_⟩
        have := ih (by simpa [NodupKeys, recKeys] using h.2)
        simpa [NodupKeys, recKeys] using this

/-- Map lookup in a delete result also succeeds in the original map. -/
theorem mapGet_mapDelete_sub {m : JMap} {k n : Line} {v : Setting}
    (h : mapGet (mapDelete m k) n = some v) : ∃ w, mapGet m n = some w := by
  induction m with
  | nil => simp [mapDelete, mapGet] at h
  | cons e rest ih =>
      obtain ⟨a, w⟩ := e
      by_cases hak : a = k
      · subst hak
        rw [mapDelete, if_pos rfl] at h
        by_cases han : a = n
        · exact ⟨w, by simp [mapGet, han]⟩
        · exact ⟨v, by simpa [mapGet, han] using h⟩
      · rw [mapDelete, if_neg hak] at h
        by_cases han : a = n
        · exact ⟨w, by simp [mapGet, han]⟩
        · rw [mapGet, if_neg han] at h
          obtain ⟨u, hu⟩ := ih h
          exact ⟨u, by simpa [mapGet, han] using hu⟩

/-- Map lookup in `mapSet m k s` succeeds only at `k` or at a key of `m`. -/
theorem mapGet_mapSet_cases {m : JMap} {k n : Line} {s v : Setting}
    (h : mapGet (mapSet m k s) n = some v) :
    n = k ∨ ∃ w, mapGet m n = some w := by
  induction m with
  | nil =>
      simp only [mapSet, mapGet] at h
      by_cases han : k = n
      · exact Or.inl han.symm
      · simp [han] at h
  | cons e rest ih =>
      obtain ⟨a, w⟩ := e
      by_cases hak : a = k
      · subst hak
        rw [mapSet, if_pos rfl] at h
        by_cases han : a = n
        · exact Or.inr ⟨w, by simp [mapGet, han]⟩
        · rw [mapGet, if_neg han] at h
          exact Or.inr ⟨v, by simpa [mapGet, han] using h⟩
      · rw [mapSet, if_neg hak] at h
        by_cases han : a = n
        · exact Or.inr ⟨w, by simp [mapGet, han]⟩
        · rw [mapGet, if_neg han] at h
          rcases ih h with h1 | ⟨u, hu⟩
          · exact Or.inl h1
          · exact Or.inr ⟨u, by simpa [mapGet, han] using hu⟩

theorem mapGet_foldl_mapSet {k : Line} {v : Setting} :
    ∀ (ss : List Setting) (m : JMap),
      mapGet (ss.foldl (fun m s => mapSet m s.key s) m) k = some v →
      k ∈ ss.map Setting.key ∨ ∃ w, mapGet m k = some w := by
  intro ss
  induction ss with
  | nil => exact fun m hm => Or.inr ⟨v, hm⟩
  | cons s rest ih =>
      intro m hm
      rcases ih (mapSet m s.key s) (by simpa using hm) with h1 | ⟨w, hw⟩
      · exact Or.inl (by simp [h1])
      · rcases mapGet_mapSet_cases hw with h2 | ⟨u, hu⟩
        · exact Or.inl (by simp [h2])
        · exact Or.inr ⟨u, hu⟩

/-- Keys of `buildMap ss` are keys of settings in `ss`. -/
theorem mapGet_buildMap_key {ss : List Setting} {k : Line} {v : Setting}
    (h : mapGet (buildMap ss) k = some v) : k ∈ ss.map Setting.key := by
  rcases mapGet_foldl_mapSet ss [] h with h1 | ⟨w, hw⟩
  · exact h1
  · simp [mapGet] at hw

/-! ## Frame lemmas: untargeted lines survive -/

theorem processSec_frame {dkeys : List Line} :
    ∀ (B : List Line) (rem : JMap),
      (∀ k v, mapGet rem k = some v → k ∈ dkeys) →
      List.Sublist
        (B.filter (fun l =>
          match findKey (jsTrim l) with
          | none => true
          | some k => !(dkeys.contains k)))
        (processSec rem B).1 := by
  intro B
  induction B with
  | nil =>
      intro rem _
      simp [processSec]
  | cons l rest ih =>
      intro rem hsub
      rw [processSec]
      cases hfk : findKey (jsTrim l) with
      | none =>
          simp only [hfk, List.filter_cons]
          exact List.Sublist.cons₂ l (ih rem hsub)
      | some k =>
          cases hget : mapGet rem k with
          | some s =>
              have hk : k ∈ dkeys := hsub k s hget
              have hcont : dkeys.contains k = true :=
                List.elem_eq_true_of_mem hk
              simp only [hfk, hget, List.filter_cons, hcont, Bool.not_true]
              refine List.Sublist.cons _ ?_
              exact ih (mapDelete rem k)
                (fun k' v' h => hsub k' (mapGet_mapDelete_sub h).choose
                  (mapGet_mapDelete_sub h).choose_spec)
          | none =>
              simp only [hfk, hget, List.filter_cons]
              by_cases hp : dkeys.contains k = true
              · simp only [hp, Bool.not_true]
                exact List.Sublist.cons l (ih rem hsub)
              · simp only [Bool.not_eq_true] at hp
                simp only [hp, Bool.not_false]
                exact List.Sublist.cons₂ l (ih rem hsub)

theorem presLine_nonheader {g : Rec} {cur : Line} {l : Line}
    (hl : isHeader (jsTrim l) = false) (hcur : cur ≠ []) :
    presLine g cur l =
      (match findKey (jsTrim l) with
       | none => true
       | some k => !((desiredKeys g cur).contains k)) := by
  have : cur.isEmpty = false := by
    cases cur
    · exact absurd rfl hcur
    · rfl
  simp [presLine, hl, this]

theorem finalizeSection_frame {g P : Rec} {cur : Line}
    (hInv : ∀ n v, recLookup P n = some v → recLookup g n = some v)
    (hcur : cur ≠ []) (B : List Line)
    (hB : ∀ l ∈ B, isHeader (jsTrim l) = false) :
    List.Sublist (B.filter (presLine g cur))
      (finalizeSection B (recLookup P cur)) := by
  have hfc : B.filter (presLine g cur) =
      B.filter (fun l =>
        match findKey (jsTrim l) with
        | none => true
        | some k => !((desiredKeys g cur).contains k)) := by
    apply List.filter_congr
    intro l hl
    exact presLine_nonheader (hB l hl) hcur
  rw [hfc]
  cases hP : recLookup P cur with
  | none =>
      simp only [finalizeSection]
      exact List.filter_sublist B
  | some ss =>
      have hg : recLookup g cur = some ss := hInv cur ss hP
      have hdk : desiredKeys g cur = ss.map Setting.key := by
        simp [desiredKeys, hg]
      by_cases hss : ss.isEmpty
      · simp only [finalizeSection, hss, if_true]
        exact List.filter_sublist B
      · simp only [finalizeSection, hss, Bool.false_eq_true, if_false]
        refine List.Sublist.trans ?_ (List.sublist_append_left _ _)
        rw [hdk]
        exact processSec_frame B (buildMap ss) (fun k v h => mapGet_buildMap_key h)

theorem walk_frame {g : Rec} :
    ∀ (rest : List Line) (P : Rec) (cur : Line) (secL : List Line),
      (∀ n v, recLookup P n = some v → recLookup g n = some v) →
      NodupKeys P →
      (cur = [] → secL = []) →
      (∀ l ∈ secL, isHeader (jsTrim l) = false) →
      List.Sublist (secL.filter (presLine g cur) ++ presGo g cur rest)
        (walk P cur secL rest) := by
  intro rest
  induction rest with
  | nil =>
      intro P cur secL hInv hnd hcs hB
      rw [walk, presGo]
      by_cases hc : cur = []
      · simp [hc, hcs hc]
      · have hce : cur.isEmpty = false := by
          cases cur
          · exact absurd rfl hc
          · rfl
        simp only [hce, Bool.false_eq_true, if_false, List.append_nil]
        exact List.Sublist.trans (finalizeSection_frame hInv hc secL hB)
          (List.sublist_append_left _ _)
  | cons l rest ih =>
      intro P cur secL hInv hnd hcs hB
      rw [walk, presGo]
      by_cases hh : isHeader (jsTrim l) = true
      · simp only [hh, if_true]
        by_cases hc : cur = []
        · have hce : cur.isEmpty = true := by simp [hc]
          simp only [hce, if_true, List.nil_append, hcs hc, List.filter_nil]
          exact List.Sublist.cons₂ l (by
            have := ih P (headerName (jsTrim l)) []
              hInv hnd (fun _ => rfl) (by simp)
            simpa using this)
        · have hce : cur.isEmpty = false := by
            cases cur
            · exact absurd rfl hc
            · rfl
          simp only [hce, Bool.false_eq_true, if_false]
          refine List.Sublist.append (finalizeSection_frame hInv hc secL hB) ?_
          refine List.Sublist.cons₂ l ?_
          have hInv2 : ∀ n v, recLookup (recErase P cur) n = some v →
              recLookup g n = some v :=
            fun n v h => hInv n v (recLookup_recErase_of_nodup hnd h)
          have := ih (recErase P cur) (headerName (jsTrim l)) []
            hInv2 (nodupKeys_recErase cur hnd) (fun _ => rfl) (by simp)
          simpa using this
      · have hh2 : isHeader (jsTrim l) = false := by
          simpa using hh
        simp only [hh2, Bool.false_eq_true, if_false]
        by_cases hc : cur = []
        · have hce : cur.isEmpty = true := by simp [hc]
          have hpl : presLine g cur l = true := by
            simp [presLine, hc]
          simp only [hce, if_true, hpl, hcs hc, List.filter_nil, List.nil_append]
          exact List.Sublist.cons₂ l (by
            have := ih P cur [] hInv hnd (fun _ => rfl) (by simp)
            simpa [hcs hc] using this)
        · have hce : cur.isEmpty = false := by
            cases cur
            · exact absurd rfl hc
            · rfl
          simp only [hce, Bool.false_eq_true, if_false]
          have hB2 : ∀ x ∈ secL ++ [l], isHeader (jsTrim x) = false := by
            intro x hx
            rcases List.mem_append.mp hx with hx | hx
            · exact hB x hx
            · simp only [List.mem_singleton] at hx
              subst hx
              exact hh2
          have := ih P cur (secL ++ [l]) hInv hnd (fun hcc => absurd hcc hc) hB2
          rw [List.filter_append] at this
          by_cases hpl : presLine g cur l = true
          · simp only [hpl, if_true]
            simpa [List.filter_cons, hpl] using this
          · have hpl2 : presLine g cur l = false := by simpa using hpl
            simp only [hpl2, Bool.false_eq_true, if_false]
            simpa [List.filter_cons, hpl2] using this

/-! ## Map entries and well-formed maps -/

theorem mapGet_mem {m : JMap} {k : Line} {s : Setting}
    (h : mapGet m k = some s) : (k, s) ∈ m := by
  induction m with
  | nil => simp [mapGet] at h
  | cons e rest ih =>
      obtain ⟨a, w⟩ := e
      by_cases hak : a = k
      · subst hak
        rw [mapGet, if_pos rfl] at h
        simp only [Option.some_inj] at h
        subst h
        simp
      · rw [mapGet, if_neg hak] at h
        exact List.mem_cons_of_mem _ (ih h)

theorem mapDelete_subset {m : JMap} {k : Line} {e : Line × Setting}
    (h : e ∈ mapDelete m k) : e ∈ m := by
  induction m with
  | nil => simp [mapDelete] at h
  | cons f rest ih =>
      obtain ⟨a, w⟩ := f
      by_cases hak : a = k
      · subst hak
        rw [mapDelete, if_pos rfl] at h
        exact List.mem_cons_of_mem _ h
      · rw [mapDelete, if_neg hak] at h
        rcases List.mem_cons.mp h with h | h
        · exact h ▸ List.mem_cons_self _ _
        · exact List.mem_cons_of_mem _ (ih h)

theorem goodMap_mapDelete {m : JMap} (k : Line) (h : GoodMap m) :
    GoodMap (mapDelete m k) :=
  fun e he => h e (mapDelete_subset he)

theorem processSec_rem_subset {e : Line × Setting} :
    ∀ (B : List Line) (m : JMap), e ∈ (processSec m B).2 → e ∈ m := by
  intro B
  induction B with
  | nil => intro m h; simpa [processSec] using h
  | cons l rest ih =>
      intro m h
      rw [processSec] at h
      cases hfk : findKey (jsTrim l) with
      | none =>
          simp only [hfk] at h
          exact ih m h
      | some k =>
          simp only [hfk] at h
          cases hget : mapGet m k with
          | some s =>
              simp only [hget] at h
              exact mapDelete_subset (ih (mapDelete m k) h)
          | none =>
              simp only [hget] at h
              exact ih m h

theorem mapSet_not_mem_append {m : JMap} {k : Line} {v : Setting}
    (h : k ∉ m.map Prod.fst) : mapSet m k v = m ++ [(k, v)] := by
  induction m with
  | nil => rfl
  | cons e rest ih =>
      obtain ⟨a, w⟩ := e
      simp only [List.map_cons, List.mem_cons, not_or] at h
      rw [mapSet, if_neg (Ne.symm h.1), ih h.2]
      rfl

theorem foldl_mapSet_disjoint :
    ∀ (ss : List Setting) (m : JMap),
      (∀ s ∈ ss, s.key ∉ m.map Prod.fst) → (ss.map Setting.key).Nodup →
      ss.foldl (fun m s => mapSet m s.key s) m = m ++ ss.map (fun s => (s.key, s)) := by
  intro ss
  induction ss with
  | nil => intro m _ _; simp
  | cons s rest ih =>
      intro m hdisj hnd
      simp only [List.map_cons, List.nodup_cons] at hnd
      rw [List.foldl_cons, mapSet_not_mem_append (hdisj s (by simp)),
        ih (m ++ [(s.key, s)]) ?_ hnd.2]
      · simp
      · intro t ht
        simp only [List.map_append, List.map_cons, List.map_nil, List.mem_append,
          List.mem_singleton, not_or]
        refine ⟨hdisj t (by simp [ht]), ?_⟩
        intro he
        exact hnd.1 (he ▸ List.mem_map_of_mem Setting.key ht)

/-- With pairwise distinct keys, the settings map is the literal entry list. -/
theorem buildMap_of_nodup {ss : List Setting} (h : (ss.map Setting.key).Nodup) :
    buildMap ss = ss.map (fun s => (s.key, s)) := by
  have := foldl_mapSet_disjoint ss [] (by simp) h
  simpa [buildMap] using this

theorem goodMap_of_goodSettings {ss : List Setting}
    (hg : ∀ s ∈ ss, goodSetting s = true) (hnd : (ss.map Setting.key).Nodup) :
    GoodMap (buildMap ss) := by
  rw [buildMap_of_nodup hnd]
  intro e he
  simp only [List.mem_map] at he
  obtain ⟨s, hs, rfl⟩ := he
  have := hg s hs
  simp only [goodSetting, Bool.and_eq_true, Bool.not_eq_true', List.isEmpty_eq_false,
    List.all_eq_true] at this
  exact ⟨rfl, by simpa using this.1.1.2, this.1.2, this.2⟩

/-! ## Idempotence of section finalization -/

theorem processSec_append :
    ∀ (xs ys : List Line) (M : JMap),
      processSec M (xs ++ ys) =
        ((processSec M xs).1 ++ (processSec (processSec M xs).2 ys).1,
          (processSec (processSec M xs).2 ys).2) := by
  intro xs
  induction xs with
  | nil => intro ys M; simp [processSec]
  | cons l rest ih =>
      intro ys M
      rw [List.cons_append, processSec]
      cases hfk : findKey (jsTrim l) with
      | none =>
          simp only [hfk]
          rw [processSec]
          simp only [hfk]
          simp [ih]
      | some k =>
          cases hget : mapGet M k with
          | some s =>
              simp only [hfk, hget]
              rw [processSec]
              simp only [hfk, hget]
              simp [ih]
          | none =>
              simp only [hfk, hget]
              rw [processSec]
              simp only [hfk, hget]
              simp [ih]

/-- Rescanning the output of one finalization pass consumes the same keys at
the same places and changes nothing. -/
theorem processSec_self :
    ∀ (B : List Line) (M : JMap), GoodMap M →
      processSec M (processSec M B).1 = ((processSec M B).1, (processSec M B).2) := by
  intro B
  induction B with
  | nil => intro M _; simp [processSec]
  | cons l rest ih =>
      intro M hgm
      rw [processSec]
      cases hfk : findKey (jsTrim l) with
      | none =>
          simp only [hfk]
          rw [processSec]
          simp only [hfk]
          simp [ih M hgm]
      | some k =>
          cases hget : mapGet M k with
          | some s =>
              simp only [hfk, hget]
              have hge := hgm (k, s) (mapGet_mem hget)
              have hfk2 : findKey (jsTrim (k ++ eqSep ++ s.value)) = some k :=
                findKey_settingLine hge.2.1 hge.2.2.1 hge.2.2.2
              rw [processSec]
              simp only [hfk2, hget]
              simp [ih (mapDelete M k) (goodMap_mapDelete k hgm)]
          | none =>
              simp only [hfk, hget]
              rw [processSec]
              simp only [hfk, hget]
              simp [ih M hgm]

/-- Scanning the lines written from a map consumes every entry in order and
reproduces the lines. -/
theorem processSec_replay :
    ∀ (M : JMap), GoodMap M →
      processSec M (M.map (fun e => e.1 ++ eqSep ++ e.2.value)) =
        (M.map (fun e => e.1 ++ eqSep ++ e.2.value), []) := by
  intro M
  induction M with
  | nil => intro _; simp [processSec]
  | cons e M2 ih =>
      intro hgm
      obtain ⟨k, s⟩ := e
      have hge := hgm (k, s) (by simp)
      rw [List.map_cons, processSec]
      have hfk : findKey (jsTrim (k ++ eqSep ++ s.value)) = some k :=
        findKey_settingLine hge.2.1 hge.2.2.1 hge.2.2.2
      have hget : mapGet ((k, s) :: M2) k = some s := by simp [mapGet]
      have hdel : mapDelete ((k, s) :: M2) k = M2 := by simp [mapDelete]
      simp only [hfk, hget, hdel]
      have := ih (fun f hf => hgm f (List.mem_cons_of_mem _ hf))
      simp only [List.append_assoc] at this
      simp [this]

/-- The appended leftover lines written by `finalizeSection`, rewritten
through the key of each entry. -/
theorem leftover_lines_eq {m : JMap} (h : GoodMap m) :
    m.map (fun e => e.2.key ++ eqSep ++ e.2.value) =
      m.map (fun e => e.1 ++ eqSep ++ e.2.value) := by
  apply List.map_congr_left
  intro e he
  rw [(h e he).1]

/-- Finalizing a section twice with the same well-formed settings equals
finalizing it once. -/
theorem finalizeSection_idem {B : List Line} {ss : List Setting}
    (hg : ∀ s ∈ ss, goodSetting s = true) (hnd : (ss.map Setting.key).Nodup) :
    finalizeSection (finalizeSection B (some ss)) (some ss) =
      finalizeSection B (some ss) := by
  by_cases hss : ss.isEmpty
  · simp [finalizeSection, hss]
  · have hgm : GoodMap (buildMap ss) := goodMap_of_goodSettings hg hnd
    have hss2 : ss.isEmpty = false := by simpa using hss
    simp only [finalizeSection, hss2, Bool.false_eq_true, if_false]
    have hrem : GoodMap (processSec (buildMap ss) B).2 :=
      fun e he => hgm e (processSec_rem_subset B (buildMap ss) he)
    rw [leftover_lines_eq hrem, processSec_append, processSec_self B (buildMap ss) hgm]
    rw [processSec_replay (processSec (buildMap ss) B).2 hrem]
    simp

/-! ## Record permutation machinery -/

theorem recLookup_mem {r : Rec} {k : Line} {v : List Setting}
    (h : recLookup r k = some v) : (k, v) ∈ r := by
  induction r with
  | nil => simp [recLookup] at h
  | cons e rest ih =>
      obtain ⟨a, w⟩ := e
      by_cases hak : a = k
      · subst hak
        rw [recLookup, if_pos rfl] at h
        simp only [Option.some_inj] at h
        subst h
        simp
      · rw [recLookup, if_neg hak] at h
        exact List.mem_cons_of_mem _ (ih h)

theorem recLookup_of_mem_nodup {r : Rec} {k : Line} {v : List Setting}
    (hnd : NodupKeys r) (h : (k, v) ∈ r) : recLookup r k = some v := by
  induction r with
  | nil => simp at h
  | cons e rest ih =>
      obtain ⟨a, w⟩ := e
      simp only [NodupKeys, recKeys, List.map_cons, List.nodup_cons] at hnd
      rcases List.mem_cons.mp h with h | h
      · cases h
        simp [recLookup]
      · have hak : a ≠ k := by
          intro he
          subst he
          exact hnd.1 (List.mem_map_of_mem Prod.fst h)
        rw [recLookup, if_neg hak]
        exact ih (by simpa [NodupKeys, recKeys] using hnd.2) h

theorem recErase_entry_subset {r : Rec} {k : Line} {e : Line × List Setting}
    (h : e ∈ recErase r k) : e ∈ r := by
  induction r with
  | nil => simp [recErase] at h
  | cons f rest ih =>
      obtain ⟨a, w⟩ := f
      by_cases hak : a = k
      · subst hak
        rw [recErase, if_pos rfl] at h
        exact List.mem_cons_of_mem _ h
      · rw [recErase, if_neg hak] at h
        rcases List.mem_cons.mp h with h | h
        · exact h ▸ List.mem_cons_self _ _
        · exact List.mem_cons_of_mem _ (ih h)

theorem goodRec_recErase {r : Rec} (k : Line) (h : GoodRec r) :
    GoodRec (recErase r k) :=
  fun e he => h e (recErase_entry_subset he)

theorem goodRec_perm {r q : Rec} (h : GoodRec r) (hp : r.Perm q) : GoodRec q :=
  fun e he => h e (hp.symm.subset he)

theorem nodupKeys_perm {r q : Rec} (h : NodupKeys r) (hp : r.Perm q) : NodupKeys q :=
  (h : (r.map Prod.fst).Nodup).perm (hp.map Prod.fst)

theorem insertByIdx_perm (x : Line × List Setting) :
    ∀ (l : Rec), (insertByIdx x l).Perm (x :: l) := by
  intro l
  induction l with
  | nil => simp [insertByIdx]
  | cons y rest ih =>
      rw [insertByIdx]
      by_cases hc : (arrayIndexKey x.1).getD 0 < (arrayIndexKey y.1).getD 0
      · simp [hc]
      · simp only [hc, if_false]
        exact List.Perm.trans (List.Perm.cons y ih) (List.Perm.swap x y rest)

theorem sortByIdx_perm : ∀ (l : Rec), (sortByIdx l).Perm l := by
  intro l
  induction l with
  | nil => simp [sortByIdx]
  | cons x rest ih =>
      rw [sortByIdx]
      exact List.Perm.trans (insertByIdx_perm x (sortByIdx rest)) (List.Perm.cons x ih)

theorem forInOrder_perm (r : Rec) : (forInOrder r).Perm r := by
  unfold forInOrder
  refine List.Perm.trans
    (List.Perm.append_right _ (sortByIdx_perm _)) ?_
  exact List.filter_append_perm _ r

theorem cons_recErase_perm {r : Rec} {n : Line} {ss : List Setting}
    (hnd : NodupKeys r) (hm : (n, ss) ∈ r) :
    ((n, ss) :: recErase r n).Perm r := by
  induction r with
  | nil => simp at hm
  | cons e rest ih =>
      obtain ⟨a, w⟩ := e
      simp only [NodupKeys, recKeys, List.map_cons, List.nodup_cons] at hnd
      by_cases han : a = n
      · subst han
        have hw : w = ss := by
          rcases List.mem_cons.mp hm with hm | hm
          · exact (Prod.mk.injEq .. ▸ hm).2.symm
          · exact absurd (List.mem_map_of_mem Prod.fst hm) hnd.1
        subst hw
        rw [recErase, if_pos rfl]
      · have hm2 : (n, ss) ∈ rest := by
          rcases List.mem_cons.mp hm with hm | hm
          · exact absurd (Prod.mk.injEq .. ▸ hm).1.symm han
          · exact hm
        rw [recErase, if_neg han]
        exact List.Perm.trans (List.Perm.swap (a, w) (n, ss) _)
          (List.Perm.cons (a, w) (ih (by simpa [NodupKeys, recKeys] using hnd.2) hm2))

theorem recErase_perm_of_perm {P Q : Rec} {n : Line} {ss : List Setting}
    (hnd : NodupKeys P) (h : P.Perm ((n, ss) :: Q)) :
    (recErase P n).Perm Q := by
  have hm : (n, ss) ∈ P := h.symm.subset (List.mem_cons_self _ _)
  exact (cons_recErase_perm hnd hm).trans h |>.cons_inv

/-! ## Replaying appended blocks through the walk -/

theorem findKey_settingLine_of_good {s : Setting} (h : goodSetting s = true) :
    findKey (jsTrim (settingLine s)) = some s.key := by
  simp only [goodSetting, Bool.and_eq_true, Bool.not_eq_true', List.isEmpty_eq_false,
    List.all_eq_true] at h
  exact findKey_settingLine h.1.1.2 h.1.2 h.2

theorem settingLine_nonheader_of_good {s : Setting} (h : goodSetting s = true) :
    isHeader (jsTrim (settingLine s)) = false := by
  simp only [goodSetting, Bool.and_eq_true, Bool.not_eq_true', List.isEmpty_eq_false,
    List.all_eq_true] at h
  exact settingLine_not_header h.1.1.2 h.1.2 h.2

theorem walk_append_nonheaders {P : Rec} {cur : Line} {tail : List Line}
    (hcur : cur ≠ []) :
    ∀ (E : List Line) (b : List Line), (∀ l ∈ E, isHeader (jsTrim l) = false) →
      walk P cur b (E ++ tail) = walk P cur (b ++ E) tail := by
  intro E
  induction E with
  | nil => intro b _; simp
  | cons l E2 ih =>
      intro b hE
      rw [List.cons_append, walk]
      have hce : cur.isEmpty = false := by
        cases cur
        · exact absurd rfl hcur
        · rfl
      simp only [hE l (by simp), Bool.false_eq_true, if_false, hce]
      rw [ih (b ++ [l]) (fun x hx => hE x (by simp [hx]))]
      simp

/-- Finalizing the lines written for a full group of well-formed settings
reproduces them and consumes every key. -/
theorem finalize_replay {ss : List Setting} (hg : ∀ s ∈ ss, goodSetting s = true)
    (hnd : (ss.map Setting.key).Nodup) (hss : ss ≠ []) :
    finalizeSection (ss.map settingLine) (some ss) = ss.map settingLine := by
  have hss2 : ss.isEmpty = false := by simpa using hss
  simp only [finalizeSection, hss2, Bool.false_eq_true, if_false]
  have hgm : GoodMap (buildMap ss) := goodMap_of_goodSettings hg hnd
  have hlines : ss.map settingLine =
      (buildMap ss).map (fun e => e.1 ++ eqSep ++ e.2.value) := by
    rw [buildMap_of_nodup hnd, List.map_map]
    rfl
  rw [hlines, processSec_replay (buildMap ss) hgm]
  simp

theorem appendNew_nil : appendNew [] = [] := rfl

/-- The walk over appended blocks, entered while inside a section whose
buffered lines are the block lines of its own group. -/
theorem walk_blocks :
    ∀ (Q P : Rec) (n : Line) (ss : List Setting),
      NodupKeys P → GoodRec P → P.Perm ((n, ss) :: Q) →
      walk P n (ss.map settingLine) (Q.flatMap blockOf) =
        ss.map settingLine ++ Q.flatMap blockOf := by
  intro Q
  induction Q with
  | nil =>
      intro P n ss hnd hgr hperm
      have hmem : (n, ss) ∈ P := hperm.symm.subset (List.mem_cons_self _ _)
      obtain ⟨hn, hss, hgs, hknd⟩ := hgr (n, ss) hmem
      have hlook : recLookup P n = some ss := recLookup_of_mem_nodup hnd hmem
      have hce : n.isEmpty = false := by
        cases n
        · exact absurd rfl hn
        · rfl
      rw [List.flatMap_nil, walk, if_neg (by simp [hce]), hlook]
      have herase : recErase P n = [] :=
        List.Perm.eq_nil (recErase_perm_of_perm hnd hperm)
      rw [finalize_replay hgs hknd hss, herase, appendNew_nil]
  | cons e Q2 ih =>
      intro P n ss hnd hgr hperm
      obtain ⟨m, ss2⟩ := e
      have hmem : (n, ss) ∈ P := hperm.symm.subset (List.mem_cons_self _ _)
      obtain ⟨hn, hss, hgs, hknd⟩ := hgr (n, ss) hmem
      have hmem2 : (m, ss2) ∈ P :=
        hperm.symm.subset (List.mem_cons_of_mem _ (List.mem_cons_self _ _))
      obtain ⟨hm, hss2, hgs2, hknd2⟩ := hgr (m, ss2) hmem2
      have hlook : recLookup P n = some ss := recLookup_of_mem_nodup hnd hmem
      have hce : n.isEmpty = false := by
        cases n
        · exact absurd rfl hn
        · rfl
      have hblock : blockOf (m, ss2) = headerLine m :: ss2.map settingLine := by
        have : ss2.isEmpty = false := by simpa using hss2
        simp [blockOf, this]
      rw [List.flatMap_cons, hblock, List.cons_append, walk]
      rw [jsTrim_headerLine]
      simp only [isHeader_headerLine, if_true, headerName_headerLine, hce,
        Bool.false_eq_true, if_false, hlook]
      rw [finalize_replay hgs hknd hss]
      have hperm2 : (recErase P n).Perm ((m, ss2) :: Q2) :=
        recErase_perm_of_perm hnd hperm
      have hnd2 : NodupKeys (recErase P n) := nodupKeys_recErase n hnd
      have hgr2 : GoodRec (recErase P n) := goodRec_recErase n hgr
      rw [walk_append_nonheaders hm (ss2.map settingLine) []
        (by
          intro l hl
          simp only [List.mem_map] at hl
          obtain ⟨s, hs, rfl⟩ := hl
          exact settingLine_nonheader_of_good (hgs2 s hs))]
      rw [List.nil_append]
      rw [ih (recErase P n) m ss2 hnd2 hgr2 hperm2]

/-- The walk over appended blocks, entered outside any section. -/
theorem walk_blocks_start :
    ∀ (Q P : Rec), NodupKeys P → GoodRec P → P.Perm Q →
      walk P [] [] (Q.flatMap blockOf) = Q.flatMap blockOf := by
  intro Q P hnd hgr hperm
  cases Q with
  | nil =>
      have : P = [] := List.Perm.eq_nil hperm
      subst this
      rw [List.flatMap_nil, walk]
      simp [appendNew_nil]
  | cons e Q2 =>
      obtain ⟨m, ss2⟩ := e
      have hmem2 : (m, ss2) ∈ P := hperm.symm.subset (List.mem_cons_self _ _)
      obtain ⟨hm, hss2, hgs2, hknd2⟩ := hgr (m, ss2) hmem2
      have hblock : blockOf (m, ss2) = headerLine m :: ss2.map settingLine := by
        have : ss2.isEmpty = false := by simpa using hss2
        simp [blockOf, this]
      rw [List.flatMap_cons, hblock, List.cons_append, walk]
      rw [jsTrim_headerLine]
      simp only [isHeader_headerLine, if_true, headerName_headerLine,
        List.isEmpty_nil, List.nil_append]
      rw [walk_append_nonheaders hm (ss2.map settingLine) []
        (by
          intro l hl
          simp only [List.mem_map] at hl
          obtain ⟨s, hs, rfl⟩ := hl
          exact settingLine_nonheader_of_good (hgs2 s hs))]
      rw [List.nil_append]
      rw [walk_blocks Q2 P m ss2 hnd hgr hperm]

/-! ## Idempotence of the walk -/

theorem processSec_out_nonheader :
    ∀ (B : List Line) (M : JMap), GoodMap M →
      (∀ l ∈ B, isHeader (jsTrim l) = false) →
      ∀ l ∈ (processSec M B).1, isHeader (jsTrim l) = false := by
  intro B
  induction B with
  | nil =>
      intro M _ _ l hl
      simp [processSec] at hl
  | cons x rest ih =>
      intro M hgm hB l hl
      rw [processSec] at hl
      cases hfk : findKey (jsTrim x) with
      | none =>
          simp only [hfk] at hl
          rcases List.mem_cons.mp hl with h | h
          · exact h ▸ hB x (by simp)
          · exact ih M hgm (fun y hy => hB y (by simp [hy])) l h
      | some k =>
          cases hget : mapGet M k with
          | some s =>
              simp only [hfk, hget] at hl
              rcases List.mem_cons.mp hl with h | h
              · have hge := hgm (k, s) (mapGet_mem hget)
                exact h ▸ settingLine_not_header hge.2.1 hge.2.2.1 hge.2.2.2
              · exact ih (mapDelete M k) (goodMap_mapDelete k hgm)
                  (fun y hy => hB y (by simp [hy])) l h
          | none =>
              simp only [hfk, hget] at hl
              rcases List.mem_cons.mp hl with h | h
              · exact h ▸ hB x (by simp)
              · exact ih M hgm (fun y hy => hB y (by simp [hy])) l h

theorem finalize_out_nonheader {P : Rec} {cur : Line} {B : List Line}
    (hgr : GoodRec P) (hB : ∀ l ∈ B, isHeader (jsTrim l) = false) :
    ∀ l ∈ finalizeSection B (recLookup P cur), isHeader (jsTrim l) = false := by
  cases hlook : recLookup P cur with
  | none => simpa [finalizeSection] using hB
  | some ss =>
      obtain ⟨_, hss, hgs, hknd⟩ := hgr (cur, ss) (recLookup_mem hlook)
      have hgm : GoodMap (buildMap ss) := goodMap_of_goodSettings hgs hknd
      have he2 : ss.isEmpty = false := by simpa using hss
      simp only [finalizeSection, he2, Bool.false_eq_true, if_false]
      intro l hl
      rcases List.mem_append.mp hl with h | h
      · exact processSec_out_nonheader B (buildMap ss) hgm hB l h
      · simp only [List.mem_map] at h
        obtain ⟨e, he3, rfl⟩ := h
        have hge := hgm e (processSec_rem_subset B (buildMap ss) he3)
        rw [hge.1]
        exact settingLine_not_header hge.2.1 hge.2.2.1 hge.2.2.2

theorem finalizeSection_lookup_idem {P : Rec} {cur : Line} {B : List Line}
    (hgr : GoodRec P) :
    finalizeSection (finalizeSection B (recLookup P cur)) (recLookup P cur) =
      finalizeSection B (recLookup P cur) := by
  cases hlook : recLookup P cur with
  | none => simp [finalizeSection]
  | some ss =>
      obtain ⟨_, hss, hgs, hknd⟩ := hgr (cur, ss) (recLookup_mem hlook)
      exact finalizeSection_idem hgs hknd

/-- The walk over appended blocks, entered inside a section whose buffered
lines are already stable under finalization. -/
theorem walk_tail_blocks :
    ∀ (Q P : Rec) (cur : Line) (B : List Line),
      NodupKeys P → GoodRec P → cur ≠ [] →
      finalizeSection B (recLookup P cur) = B →
      (recErase P cur).Perm Q →
      walk P cur B (Q.flatMap blockOf) = B ++ Q.flatMap blockOf := by
  intro Q P cur B hnd hgr hcur hfin hperm
  have hce : cur.isEmpty = false := by
    cases cur
    · exact absurd rfl hcur
    · rfl
  cases Q with
  | nil =>
      rw [List.flatMap_nil, walk, if_neg (by simp [hce]), hfin]
      have : recErase P cur = [] := List.Perm.eq_nil hperm
      rw [this, appendNew_nil]
  | cons e Q2 =>
      obtain ⟨m, ss2⟩ := e
      have hmem2 : (m, ss2) ∈ P :=
        recErase_entry_subset (hperm.symm.subset (List.mem_cons_self _ _))
      obtain ⟨hm, hss2, hgs2, hknd2⟩ := hgr (m, ss2) hmem2
      have hblock : blockOf (m, ss2) = headerLine m :: ss2.map settingLine := by
        have : ss2.isEmpty = false := by simpa using hss2
        simp [blockOf, this]
      rw [List.flatMap_cons, hblock, List.cons_append, walk]
      rw [jsTrim_headerLine]
      simp only [isHeader_headerLine, if_true, headerName_headerLine, hce,
        Bool.false_eq_true, if_false]
      rw [hfin]
      rw [walk_append_nonheaders hm (ss2.map settingLine) []
        (by
          intro l hl
          simp only [List.mem_map] at hl
          obtain ⟨s, hs, rfl⟩ := hl
          exact settingLine_nonheader_of_good (hgs2 s hs))]
      rw [List.nil_append]
      rw [walk_blocks Q2 (recErase P cur) m ss2 (nodupKeys_recErase cur hnd)
        (goodRec_recErase cur hgr) hperm]

/-- Rerunning the walk over its own output changes nothing. -/
theorem walk_idem :
    ∀ (rest : List Line) (P : Rec) (cur : Line) (secL : List Line),
      NodupKeys P → GoodRec P →
      (cur = [] → secL = []) →
      (∀ l ∈ secL, isHeader (jsTrim l) = false) →
      walk P cur [] (walk P cur secL rest) = walk P cur secL rest := by
  intro rest
  induction rest with
  | nil =>
      intro P cur secL hnd hgr hcs hB
      by_cases hc : cur = []
      · subst hc
        rw [hcs rfl, walk]
        simp only [List.isEmpty_nil, if_true]
        exact walk_blocks_start (forInOrder P) P hnd hgr (forInOrder_perm P).symm
      · have hce : cur.isEmpty = false := by
          cases cur
          · exact absurd rfl hc
          · rfl
        conv_lhs => rw [walk]
        conv_rhs => rw [walk]
        simp only [hce, Bool.false_eq_true, if_false]
        rw [walk_append_nonheaders hc (finalizeSection secL (recLookup P cur)) []
          (finalize_out_nonheader hgr hB), List.nil_append]
        exact walk_tail_blocks (forInOrder (recErase P cur)) P cur
          (finalizeSection secL (recLookup P cur)) hnd hgr hc
          (finalizeSection_lookup_idem hgr) (forInOrder_perm _).symm
  | cons l rest2 ih =>
      intro P cur secL hnd hgr hcs hB
      by_cases hh : isHeader (jsTrim l) = true
      · by_cases hc : cur = []
        · subst hc
          rw [hcs rfl]
          conv_lhs => rw [walk]
          conv_rhs => rw [walk]
          simp only [hh, if_true, List.isEmpty_nil, List.nil_append]
          rw [walk]
          simp only [hh, if_true, List.isEmpty_nil, List.nil_append]
          rw [ih P (headerName (jsTrim l)) [] hnd hgr (fun _ => rfl) (by simp)]
        · have hce : cur.isEmpty = false := by
            cases cur
            · exact absurd rfl hc
            · rfl
          conv_lhs => rw [walk]
          conv_rhs => rw [walk]
          simp only [hh, if_true, hce, Bool.false_eq_true, if_false]
          rw [walk_append_nonheaders hc (finalizeSection secL (recLookup P cur)) []
            (finalize_out_nonheader hgr hB), List.nil_append]
          rw [walk]
          simp only [hh, if_true, hce, Bool.false_eq_true, if_false]
          rw [finalizeSection_lookup_idem hgr]
          rw [ih (recErase P cur) (headerName (jsTrim l)) []
            (nodupKeys_recErase cur hnd) (goodRec_recErase cur hgr)
            (fun _ => rfl) (by simp)]
      · have hh2 : isHeader (jsTrim l) = false := by simpa using hh
        by_cases hc : cur = []
        · subst hc
          rw [hcs rfl]
          conv_lhs => rw [walk]
          conv_rhs => rw [walk]
          simp only [hh2, Bool.false_eq_true, if_false, List.isEmpty_nil, if_true]
          rw [walk]
          simp only [hh2, Bool.false_eq_true, if_false, List.isEmpty_nil, if_true]
          rw [ih P [] [] hnd hgr (fun _ => rfl) (by simp)]
        · have hce : cur.isEmpty = false := by
            cases cur
            · exact absurd rfl hc
            · rfl
          conv_lhs => rw [walk]
          conv_rhs => rw [walk]
          simp only [hh2, Bool.false_eq_true, if_false, hce]
          exact ih P cur (secL ++ [l]) hnd hgr (fun hcc => absurd hcc hc)
            (by
              intro x hx
              rcases List.mem_append.mp hx with hx | hx
              · exact hB x hx
              · simp only [List.mem_singleton] at hx
                subst hx
                exact hh2)

/-! ## Characterization of the grouped settings -/

theorem recLookup_recPush (r : Rec) (k : Line) (s : Setting) (n : Line) :
    recLookup (recPush r k s) n =
      if k = n then some ((recLookup r n).getD [] ++ [s]) else recLookup r n := by
  induction r with
  | nil =>
      by_cases hkn : k = n <;> simp [recPush, recLookup, hkn]
  | cons e rest ih =>
      obtain ⟨a, v⟩ := e
      by_cases hak : a = k
      · subst hak
        by_cases han : a = n
        · subst han
          simp [recPush, recLookup]
        · simp [recPush, recLookup, han]
      · rw [recPush, if_neg hak]
        by_cases han : a = n
        · subst han
          have hkn : ¬(k = a) := fun h => hak h.symm
          simp [recLookup, hkn]
        · simp [recLookup, han, ih]

theorem recLookup_foldl_recPush :
    ∀ (S : List Setting) (r : Rec) (n : Line),
      recLookup (S.foldl (fun r s => recPush r s.«section» s) r) n =
        match recLookup r n with
        | some l => some (l ++ S.filter (fun s => decide (s.«section» = n)))
        | none =>
            if S.filter (fun s => decide (s.«section» = n)) = [] then none
            else some (S.filter (fun s => decide (s.«section» = n))) := by
  intro S
  induction S with
  | nil =>
      intro r n
      cases h : recLookup r n <;> simp [h]
  | cons s S2 ih =>
      intro r n
      rw [List.foldl_cons, ih (recPush r s.«section» s) n, recLookup_recPush]
      by_cases hsn : s.«section» = n
      · rw [if_pos hsn]
        cases h : recLookup r n with
        | none => simp [List.filter_cons, hsn, h]
        | some l => simp [List.filter_cons, hsn, h]
      · rw [if_neg hsn]
        cases h : recLookup r n with
        | none => simp [List.filter_cons, hsn, h]
        | some l => simp [List.filter_cons, hsn, h]

theorem groupBySection_lookup (S : List Setting) (n : Line) :
    recLookup (groupBySection S) n =
      if S.filter (fun s => decide (s.«section» = n)) = [] then none
      else some (S.filter (fun s => decide (s.«section» = n))) := by
  have := recLookup_foldl_recPush S [] n
  simpa [groupBySection, recLookup] using this

theorem keys_nodup_of_pairs_nodup :
    ∀ (L : List Setting) (n : Line), (∀ s ∈ L, s.«section» = n) →
      (L.map (fun s => (s.«section», s.key))).Nodup →
      (L.map Setting.key).Nodup := by
  intro L
  induction L with
  | nil => intro n _ _; simp
  | cons s tl ih =>
      intro n hsec hnd
      simp only [List.map_cons, List.nodup_cons] at hnd ⊢
      constructor
      · intro hk
        simp only [List.mem_map] at hk
        obtain ⟨t, ht, hkey⟩ := hk
        apply hnd.1
        simp only [List.mem_map]
        refine ⟨t, ht, ?_⟩
        rw [hsec t (by simp [ht]), hsec s (by simp), hkey]
      · exact ih n (fun t ht => hsec t (by simp [ht])) hnd.2

theorem goodRec_groupBySection {S : List Setting}
    (hg : ∀ s ∈ S, goodSetting s = true)
    (hnd : (S.map (fun s => (s.«section», s.key))).Nodup) :
    GoodRec (groupBySection S) := by
  intro e he
  obtain ⟨n, ss⟩ := e
  have hlook : recLookup (groupBySection S) n = some ss :=
    recLookup_of_mem_nodup (nodupKeys_groupBySection S) he
  rw [groupBySection_lookup] at hlook
  by_cases hf : S.filter (fun s => decide (s.«section» = n)) = []
  · simp [hf] at hlook
  · rw [if_neg hf, Option.some_inj] at hlook
    subst hlook
    obtain ⟨s0, hs0⟩ := List.exists_mem_of_ne_nil _ hf
    have hs0f := List.mem_filter.mp hs0
    have hs0n : s0.«section» = n := by simpa using hs0f.2
    have hs0g := hg s0 hs0f.1
    refine ⟨?_, hf, ?_, ?_⟩
    · rw [← hs0n]
      simp only [goodSetting, Bool.and_eq_true, Bool.not_eq_true',
        List.isEmpty_eq_false] at hs0g
      exact hs0g.1.1.1
    · intro s hs
      exact hg s (List.mem_filter.mp hs).1
    · refine keys_nodup_of_pairs_nodup _ n
        (fun s hs => by simpa using (List.mem_filter.mp hs).2) ?_
      have hsub : (S.filter (fun s => decide (s.«section» = n))).Sublist S :=
        List.filter_sublist S
      exact (hnd.sublist (hsub.map _))

/-! ## Splitting the full key -/

theorem splitSlash_append {a b : List Char} (h : '/' ∉ a) :
    splitSlash (a ++ '/' :: b) = a :: splitSlash b := by
  induction a with
  | nil => simp [splitSlash]
  | cons c a2 ih =>
      simp only [List.mem_cons, not_or] at h
      rw [List.cons_append, splitSlash]
      simp only [if_neg (Ne.symm h.1)]
      rw [ih h.2]

/-! ## Walk decomposition: main part plus appended blocks -/

theorem walk_decomp :
    ∀ (rest : List Line) (P : Rec) (cur : Line) (secL : List Line),
      walk P cur secL rest =
        walkMain P cur secL rest ++ appendNew (pendAfter P cur rest) := by
  intro rest
  induction rest with
  | nil =>
      intro P cur secL
      rw [walk, walkMain, pendAfter]
      by_cases hc : cur.isEmpty <;> simp [hc]
  | cons l rest ih =>
      intro P cur secL
      rw [walk, walkMain, pendAfter]
      by_cases hh : isHeader (jsTrim l) = true
      · simp only [hh, if_true]
        rw [ih]
        simp
      · have hh2 : isHeader (jsTrim l) = false := by simpa using hh
        simp only [hh2, Bool.false_eq_true, if_false]
        by_cases hc : cur.isEmpty
        · simp only [hc, if_true]
          rw [ih]
          simp
        · have hc2 : cur.isEmpty = false := by simpa using hc
          simp only [hc2, Bool.false_eq_true, if_false]
          exact ih P cur (secL ++ [l])

theorem recLookup_recErase_ne {r : Rec} {k n : Line} (h : k ≠ n) :
    recLookup (recErase r k) n = recLookup r n := by
  induction r with
  | nil => simp [recErase]
  | cons e rest ih =>
      obtain ⟨a, v⟩ := e
      by_cases hak : a = k
      · subst hak
        rw [recErase, if_pos rfl, recLookup, if_neg h]
      · rw [recErase, if_neg hak]
        by_cases han : a = n
        · subst han
          simp [recLookup]
        · rw [recLookup, if_neg han, recLookup, if_neg han]
          exact ih

/-- The final pending record still holds every section whose name never
occurs as a header name along the walk and differs from the open section. -/
theorem pendAfter_lookup {n : Line} :
    ∀ (rest : List Line) (P : Rec) (cur : Line),
      (cur = n → cur = []) →
      (∀ l ∈ rest, isHeader (jsTrim l) = true → headerName (jsTrim l) = n →
        headerName (jsTrim l) = []) →
      recLookup (pendAfter P cur rest) n = recLookup P n := by
  intro rest
  induction rest with
  | nil =>
      intro P cur hc hr
      rw [pendAfter]
      by_cases hce : cur.isEmpty
      · simp [hce]
      · have hcne : cur ≠ [] := by simpa [List.isEmpty_iff] using hce
        simp only [hce, Bool.false_eq_true, if_false]
        exact recLookup_recErase_ne (fun h => hcne (hc h))
  | cons l rest ih =>
      intro P cur hc hr
      rw [pendAfter]
      by_cases hh : isHeader (jsTrim l) = true
      · simp only [hh, if_true]
        rw [ih _ _ (hr l (by simp) hh)
          (fun x hx => hr x (by simp [hx]))]
        by_cases hce : cur.isEmpty
        · simp [hce]
        · have hcne : cur ≠ [] := by simpa [List.isEmpty_iff] using hce
          simp only [hce, Bool.false_eq_true, if_false]
          exact recLookup_recErase_ne (fun h => hcne (hc h))
      · have hh2 : isHeader (jsTrim l) = false := by simpa using hh
        simp only [hh2, Bool.false_eq_true, if_false]
        exact ih P cur hc (fun x hx => hr x (by simp [hx]))

theorem notMem_recKeys_recErase_of_nodup {r : Rec} {n : Line} (hnd : NodupKeys r) :
    n ∉ recKeys (recErase r n) := by
  induction r with
  | nil => simp [recErase, recKeys]
  | cons e rest ih =>
      obtain ⟨a, v⟩ := e
      simp only [NodupKeys, recKeys, List.map_cons, List.nodup_cons] at hnd
      by_cases han : a = n
      · subst han
        rw [recErase, if_pos rfl]
        simpa [recKeys] using hnd.1
      · rw [recErase, if_neg han]
        simp only [recKeys, List.map_cons, List.mem_cons, not_or]
        exact ⟨fun h => han h.symm, ih (by simpa [NodupKeys, recKeys] using hnd.2)⟩

theorem recLookup_recErase_self {r : Rec} {n : Line} (hnd : NodupKeys r) :
    recLookup (recErase r n) n = none :=
  recLookup_eq_none_of_not_mem (notMem_recKeys_recErase_of_nodup hnd)

theorem recErase_of_not_mem {r : Rec} {n : Line} (h : n ∉ recKeys r) :
    recErase r n = r := by
  induction r with
  | nil => rfl
  | cons e rest ih =>
      obtain ⟨a, v⟩ := e
      simp only [recKeys, List.map_cons, List.mem_cons, not_or] at h
      rw [recErase, if_neg (fun he => h.1 he.symm), ih (by simpa [recKeys] using h.2)]

theorem recErase_recErase_of_nodup {r : Rec} {n : Line} (hnd : NodupKeys r) :
    recErase (recErase r n) n = recErase r n :=
  recErase_of_not_mem (notMem_recKeys_recErase_of_nodup hnd)

/-- Non-header lines before any section pass straight through the walk. -/
theorem walk_preamble {P : Rec} {tail : List Line} :
    ∀ (A : List Line), (∀ l ∈ A, isHeader (jsTrim l) = false) →
      walk P [] [] (A ++ tail) = A ++ walk P [] [] tail := by
  intro A
  induction A with
  | nil => intro _; simp
  | cons l A2 ih =>
      intro hA
      rw [List.cons_append, walk]
      simp only [hA l (by simp), Bool.false_eq_true, if_false, List.isEmpty_nil,
        if_true]
      rw [ih (fun x hx => hA x (by simp [hx]))]
      simp

/-! ## Keys never captured stay in the remaining map -/

theorem mapSet_entry_cases {m : JMap} {k : Line} {v : Setting} {e : Line × Setting}
    (h : e ∈ mapSet m k v) : e ∈ m ∨ e = (k, v) := by
  induction m with
  | nil =>
      simp only [mapSet, List.mem_singleton] at h
      exact Or.inr h
  | cons f rest ih =>
      obtain ⟨a, w⟩ := f
      by_cases hak : a = k
      · subst hak
        rw [mapSet, if_pos rfl] at h
        rcases List.mem_cons.mp h with h | h
        · exact Or.inr h
        · exact Or.inl (List.mem_cons_of_mem _ h)
      · rw [mapSet, if_neg hak] at h
        rcases List.mem_cons.mp h with h | h
        · exact Or.inl (h ▸ List.mem_cons_self _ _)
        · rcases ih h with h | h
          · exact Or.inl (List.mem_cons_of_mem _ h)
          · exact Or.inr h

theorem buildMap_keyInv {ss : List Setting} :
    ∀ e ∈ buildMap ss, e.2.key = e.1 := by
  suffices hgen : ∀ (L : List Setting) (m : JMap), (∀ e ∈ m, e.2.key = e.1) →
      ∀ e ∈ L.foldl (fun m s => mapSet m s.key s) m, e.2.key = e.1 by
    exact hgen ss [] (by simp)
  intro L
  induction L with
  | nil => exact fun m hm => hm
  | cons s rest ih =>
      intro m hm e he
      refine ih (mapSet m s.key s) ?_ e (by simpa using he)
      intro f hf
      rcases mapSet_entry_cases hf with hf | hf
      · exact hm f hf
      · subst hf
        rfl

theorem mapGet_mapDelete_ne {m : JMap} {k n : Line} (h : n ≠ k) :
    mapGet (mapDelete m k) n = mapGet m n := by
  induction m with
  | nil => simp [mapDelete]
  | cons e rest ih =>
      obtain ⟨a, w⟩ := e
      by_cases hak : a = k
      · subst hak
        rw [mapDelete, if_pos rfl, mapGet, if_neg (fun he => h he.symm)]
      · rw [mapDelete, if_neg hak]
        by_cases han : a = n
        · subst han
          simp [mapGet]
        · rw [mapGet, if_neg han, mapGet, if_neg han]
          exact ih

theorem processSec_get_stable {k : Line} :
    ∀ (B : List Line) (M : JMap), (∀ l ∈ B, findKey (jsTrim l) ≠ some k) →
      mapGet (processSec M B).2 k = mapGet M k := by
  intro B
  induction B with
  | nil => intro M _; simp [processSec]
  | cons l rest ih =>
      intro M hB
      rw [processSec]
      cases hfk : findKey (jsTrim l) with
      | none =>
          simp only [hfk]
          exact ih M (fun x hx => hB x (by simp [hx]))
      | some k2 =>
          have hk2 : k ≠ k2 := by
            intro he
            exact hB l (by simp) (he ▸ hfk)
          cases hget : mapGet M k2 with
          | some s =>
              simp only [hfk, hget]
              rw [ih (mapDelete M k2) (fun x hx => hB x (by simp [hx]))]
              exact mapGet_mapDelete_ne hk2
          | none =>
              simp only [hfk, hget]
              exact ih M (fun x hx => hB x (by simp [hx]))

theorem processSec_cons_none {M : JMap} {l : Line} {rest : List Line}
    (h : findKey (jsTrim l) = none) :
    processSec M (l :: rest) = (l :: (processSec M rest).1, (processSec M rest).2) := by
  rw [processSec, h]

/-! ## Map-update algebra for duplicate settings -/

theorem mapSet_collapse {m : JMap} {k : Line} {v w : Setting} :
    mapSet (mapSet m k v) k w = mapSet m k w := by
  induction m with
  | nil => simp [mapSet]
  | cons e rest ih =>
      obtain ⟨a, u⟩ := e
      by_cases hak : a = k
      · subst hak
        simp [mapSet]
      · simp [mapSet, hak, ih]

theorem mem_keys_mapSet (m : JMap) (k : Line) (v : Setting) :
    k ∈ (mapSet m k v).map Prod.fst := by
  induction m with
  | nil => simp [mapSet]
  | cons e rest ih =>
      obtain ⟨a, u⟩ := e
      by_cases hak : a = k
      · subst hak
        rw [mapSet, if_pos rfl, List.map_cons]
        exact List.mem_cons_self _ _
      · simp only [mapSet, if_neg hak, List.map_cons, List.mem_cons]
        exact Or.inr ih

theorem mem_keys_mapSet_of_mem {m : JMap} {k2 : Line} (k : Line) (v : Setting)
    (h : k2 ∈ m.map Prod.fst) : k2 ∈ (mapSet m k v).map Prod.fst := by
  induction m with
  | nil => simp at h
  | cons e rest ih =>
      obtain ⟨a, u⟩ := e
      simp only [List.map_cons, List.mem_cons] at h
      by_cases hak : a = k
      · subst hak
        rw [mapSet, if_pos rfl, List.map_cons]
        rcases h with h | h
        · subst h
          exact List.mem_cons_self _ _
        · exact List.mem_cons_of_mem _ h
      · simp only [mapSet, if_neg hak, List.map_cons, List.mem_cons]
        rcases h with h | h
        · exact Or.inl h
        · exact Or.inr (ih h)

theorem mapSet_comm_of_mem {m : JMap} {k tk : Line} {v t : Setting}
    (hk : k ∈ m.map Prod.fst) (hne : tk ≠ k) :
    mapSet (mapSet m k v) tk t = mapSet (mapSet m tk t) k v := by
  induction m with
  | nil => simp at hk
  | cons e rest ih =>
      obtain ⟨a, u⟩ := e
      by_cases hak : a = k
      · subst hak
        rw [mapSet, if_pos rfl, mapSet, if_neg (fun h => hne h.symm),
          mapSet, if_neg (fun h => hne h.symm), mapSet, if_pos rfl]
      · by_cases hat : a = tk
        · subst hat
          rw [mapSet, if_neg hak, mapSet, if_pos rfl, mapSet, if_pos rfl,
            mapSet, if_neg hak]
        · simp only [List.map_cons, List.mem_cons] at hk
          rcases hk with hk | hk
          · exact absurd hk.symm hak
          · rw [mapSet, if_neg hak, mapSet, if_neg hat, mapSet, if_neg hat,
              mapSet, if_neg hak, ih hk]

/-- Moving the last-occurrence value onto the first set of a key and
removing the later sets of that key leaves the settings map unchanged. -/
theorem foldl_mapSet_subl :
    ∀ (rest : List Setting) (m : JMap) (k : Line) (w : Setting),
      w.key = k → k ∈ m.map Prod.fst →
      (rest.filter (fun t => !(t.key == k))).foldl (fun m s => mapSet m s.key s)
          (mapSet m k (rest.foldl (fun v t => if t.key = k then t else v) w)) =
        rest.foldl (fun m s => mapSet m s.key s) (mapSet m k w) := by
  intro rest
  induction rest with
  | nil => intro m k w _ _; rfl
  | cons t rest3 ih =>
      intro m k w hwk hk
      by_cases htk : t.key = k
      · have hbeq : (!(t.key == k)) = false := by simp [htk]
        rw [List.filter_cons, hbeq]
        simp only [Bool.false_eq_true, if_false]
        rw [List.foldl_cons, if_pos htk, List.foldl_cons, htk, mapSet_collapse]
        exact ih m k t htk hk
      · have hbeq : (!(t.key == k)) = true := by simp [htk]
        rw [List.filter_cons, hbeq]
        simp only [if_true]
        rw [List.foldl_cons, List.foldl_cons, if_neg htk]
        rw [List.foldl_cons]
        rw [mapSet_comm_of_mem hk htk,
          ih (mapSet m t.key t) k w hwk (mem_keys_mapSet_of_mem t.key t hk),
          ← mapSet_comm_of_mem hk htk]

/-! ## The collapsed duplicate list builds the same map -/

theorem lastSetting_eq {s : Setting} :
    ∀ (rest : List Setting) (u : Setting),
      u.«section» = s.«section» → u.key = s.key →
      rest.foldl (fun v t => if sameSlot s t then t else v) u =
        ⟨s.«section», s.key,
          rest.foldl (fun v t => if sameSlot s t then t.value else v) u.value⟩ := by
  intro rest
  induction rest with
  | nil =>
      intro u h1 h2
      cases u
      simp only at h1 h2
      simp only [List.foldl_nil]
      rw [h1, h2]
  | cons t rest2 ih =>
      intro u h1 h2
      rw [List.foldl_cons, List.foldl_cons]
      by_cases hs : sameSlot s t = true
      · have ht : t.«section» = s.«section» ∧ t.key = s.key := by
          simp only [sameSlot, Bool.and_eq_true, beq_iff_eq] at hs
          exact ⟨hs.1.symm, hs.2.symm⟩
        rw [if_pos hs, if_pos hs]
        exact ih t ht.1 ht.2
      · have hs2 : sameSlot s t = false := by simpa using hs
        rw [if_neg (by simp [hs2]), if_neg (by simp [hs2])]
        exact ih u h1 h2

theorem lastfold_key_slot {s : Setting} :
    ∀ (rest : List Setting) (u : Setting),
      (∀ t ∈ rest, t.«section» = s.«section») →
      rest.foldl (fun v t => if t.key = s.key then t else v) u =
        rest.foldl (fun v t => if sameSlot s t then t else v) u := by
  intro rest
  induction rest with
  | nil => intro u _; rfl
  | cons t rest2 ih =>
      intro u hsec
      rw [List.foldl_cons, List.foldl_cons]
      have hts : t.«section» = s.«section» := hsec t (by simp)
      have hcond : (t.key = s.key) ↔ (sameSlot s t = true) := by
        simp only [sameSlot, Bool.and_eq_true, beq_iff_eq]
        constructor
        · intro h
          exact ⟨hts.symm, h.symm⟩
        · intro h
          exact h.2.symm
      by_cases hk : t.key = s.key
      · rw [if_pos hk, if_pos (hcond.mp hk)]
        exact ih t (fun x hx => hsec x (by simp [hx]))
      · rw [if_neg hk, if_neg (fun h => hk (hcond.mpr h))]
        exact ih u (fun x hx => hsec x (by simp [hx]))

theorem filter_key_slot {s : Setting} {rest : List Setting}
    (hsec : ∀ t ∈ rest, t.«section» = s.«section») :
    rest.filter (fun t => !(t.key == s.key)) =
      rest.filter (fun t => !sameSlot s t) := by
  apply List.filter_congr
  intro t ht
  have hts : t.«section» = s.«section» := hsec t ht
  simp [sameSlot, hts, eq_comm]

/-- Collapsing duplicates does not change the settings map of a section
group. -/
theorem foldl_mapSet_dedup {n : Line} :
    ∀ (L : List Setting), (∀ t ∈ L, t.«section» = n) →
      ∀ (m : JMap),
        (dedupSettings L).foldl (fun m s => mapSet m s.key s) m =
          L.foldl (fun m s => mapSet m s.key s) m := by
  intro L
  induction L using dedupSettings.induct with
  | case1 =>
      intro _ m
      rw [dedupSettings]
  | case2 s rest ih =>
      intro hsec m
      rw [dedupSettings, List.foldl_cons, List.foldl_cons]
      have hrec : ∀ t ∈ rest.filter (fun t => !sameSlot s t), t.«section» = n :=
        fun t ht => hsec t (List.mem_cons_of_mem _ (List.mem_of_mem_filter ht))
      rw [ih hrec]
      have hssec : s.«section» = n := hsec s (by simp)
      have hrsec : ∀ t ∈ rest, t.«section» = s.«section» := by
        intro t ht
        rw [hsec t (by simp [ht]), hssec]
      have hval : ({ s with value := lastVal s rest } : Setting) =
          rest.foldl (fun v t => if t.key = s.key then t else v) s := by
        rw [lastfold_key_slot rest s hrsec, lastSetting_eq rest s rfl rfl]
        rfl
      have hkey : ({ s with value := lastVal s rest } : Setting).key = s.key := rfl
      rw [← filter_key_slot hrsec]
      have hcollapse : mapSet m s.key s = mapSet (mapSet m s.key s) s.key s :=
        mapSet_collapse.symm
      conv_rhs => rw [hcollapse]
      rw [← foldl_mapSet_subl rest (mapSet m s.key s) s.key s rfl
        (mem_keys_mapSet m s.key s)]
      rw [mapSet_collapse, hkey, hval]

theorem buildMap_dedupSettings {n : Line} {L : List Setting}
    (hsec : ∀ t ∈ L, t.«section» = n) :
    buildMap (dedupSettings L) = buildMap L :=
  foldl_mapSet_dedup L hsec []

theorem dedupSettings_eq_nil_iff {L : List Setting} :
    dedupSettings L = [] ↔ L = [] := by
  cases L with
  | nil => simp [dedupSettings]
  | cons s rest =>
      rw [dedupSettings]
      simp

/-! ## Collapsing duplicates commutes with restriction to one section -/

theorem sameSlot_sec {s t : Setting} (h : sameSlot s t = true) :
    t.«section» = s.«section» := by
  simp only [sameSlot, Bool.and_eq_true, beq_iff_eq] at h
  exact h.1.symm

theorem lastVal_filter {s : Setting} {n : Line} (hs : s.«section» = n) :
    ∀ (rest : List Setting) (v : Line),
      rest.foldl (fun v t => if sameSlot s t then t.value else v) v =
        (rest.filter (fun t => decide (t.«section» = n))).foldl
          (fun v t => if sameSlot s t then t.value else v) v := by
  intro rest
  induction rest with
  | nil => intro v; rfl
  | cons t rest2 ih =>
      intro v
      by_cases htn : t.«section» = n
      · rw [List.filter_cons, if_pos (by simp [htn]), List.foldl_cons,
          List.foldl_cons]
        exact ih _
      · have hslot : sameSlot s t = false := by
          simp only [sameSlot, Bool.and_eq_false_iff]
          left
          simp only [beq_eq_false_iff_ne, Ne]
          intro he
          exact htn (he ▸ hs)
        rw [List.filter_cons, if_neg (by simp [htn]), List.foldl_cons,
          if_neg (by simp [hslot])]
        exact ih v

theorem dedupSettings_filter_sec (n : Line) :
    ∀ (L : List Setting),
      (dedupSettings L).filter (fun s => decide (s.«section» = n)) =
        dedupSettings (L.filter (fun s => decide (s.«section» = n))) := by
  intro L
  induction L using dedupSettings.induct with
  | case1 => simp [dedupSettings]
  | case2 s rest ih =>
      rw [dedupSettings, List.filter_cons]
      by_cases hsn : s.«section» = n
      · rw [if_pos (by simp [hsn])]
        have hRHS : (s :: rest).filter (fun s => decide (s.«section» = n)) =
            s :: rest.filter (fun s => decide (s.«section» = n)) := by
          rw [List.filter_cons, if_pos (by simp [hsn])]
        rw [hRHS, dedupSettings, ih]
        have htails : (rest.filter (fun t => !sameSlot s t)).filter
              (fun s => decide (s.«section» = n)) =
            (rest.filter (fun s => decide (s.«section» = n))).filter
              (fun t => !sameSlot s t) := by
          rw [List.filter_filter, List.filter_filter]
          apply List.filter_congr
          intro t _
          exact Bool.and_comm _ _
        have hheads : ({ s with value := lastVal s rest } : Setting) =
            { s with value := lastVal s (rest.filter
                (fun s => decide (s.«section» = n))) } := by
          have := lastVal_filter hsn rest s.value
          simp only [lastVal]
          rw [this]
        rw [htails, hheads]
      · rw [if_neg (by simp [hsn])]
        have hRHS : (s :: rest).filter (fun s => decide (s.«section» = n)) =
            rest.filter (fun s => decide (s.«section» = n)) := by
          rw [List.filter_cons, if_neg (by simp [hsn])]
        rw [hRHS, ih]
        congr 1
        rw [List.filter_filter]
        apply List.filter_congr
        intro t _
        by_cases htn : t.«section» = n
        · have hslot : sameSlot s t = false := by
            simp only [sameSlot, Bool.and_eq_false_iff]
            left
            simp only [beq_eq_false_iff_ne, Ne]
            intro he
            exact hsn (he ▸ htn)
          simp [htn, hslot]
        · simp [htn]

/-! ## Collapsing duplicates keeps the section skeleton -/

theorem recKeys_foldl_recPush :
    ∀ (L : List Setting) (r : Rec),
      recKeys (L.foldl (fun r s => recPush r s.«section» s) r) =
        L.foldl (fun ks s => if s.«section» ∈ ks then ks else ks ++ [s.«section»])
          (recKeys r) := by
  intro L
  induction L with
  | nil => intro r; rfl
  | cons s L2 ih =>
      intro r
      rw [List.foldl_cons, List.foldl_cons, ih, recKeys_recPush]

theorem mem_insKey {ks : List Line} {a : Line} (x : Line) (h : a ∈ ks) :
    a ∈ (if x ∈ ks then ks else ks ++ [x]) := by
  by_cases hx : x ∈ ks
  · simpa [hx] using h
  · rw [if_neg hx]
    exact List.mem_append_left _ h

theorem mem_insKey_self (ks : List Line) (x : Line) :
    x ∈ (if x ∈ ks then ks else ks ++ [x]) := by
  by_cases hx : x ∈ ks
  · rw [if_pos hx]
    exact hx
  · simp [hx]

theorem keysFold_filter_drop (p : Setting → Bool) :
    ∀ (L : List Setting) (ks : List Line),
      (∀ t ∈ L, p t = false → t.«section» ∈ ks) →
      (L.filter p).foldl
          (fun ks s => if s.«section» ∈ ks then ks else ks ++ [s.«section»]) ks =
        L.foldl (fun ks s => if s.«section» ∈ ks then ks else ks ++ [s.«section»])
          ks := by
  intro L
  induction L with
  | nil => intro ks _; rfl
  | cons t L2 ih =>
      intro ks hks
      cases hp : p t with
      | true =>
          rw [List.filter_cons, hp]
          simp only [if_true]
          rw [List.foldl_cons, List.foldl_cons]
          exact ih _ (fun x hx hpx => mem_insKey _ (hks x (by simp [hx]) hpx))
      | false =>
          rw [List.filter_cons, hp]
          simp only [Bool.false_eq_true, if_false]
          rw [List.foldl_cons, if_pos (hks t (by simp) hp)]
          exact ih ks (fun x hx hpx => hks x (by simp [hx]) hpx)

theorem keysFold_dedup :
    ∀ (L : List Setting) (ks : List Line),
      (dedupSettings L).foldl
          (fun ks s => if s.«section» ∈ ks then ks else ks ++ [s.«section»]) ks =
        L.foldl (fun ks s => if s.«section» ∈ ks then ks else ks ++ [s.«section»])
          ks := by
  intro L
  induction L using dedupSettings.induct with
  | case1 => intro ks; rw [dedupSettings]
  | case2 s rest ih =>
      intro ks
      rw [dedupSettings, List.foldl_cons, List.foldl_cons]
      have hhead : ({ s with value := lastVal s rest } : Setting).«section» =
          s.«section» := rfl
      rw [hhead, ih]
      exact keysFold_filter_drop _ rest _
        (fun t ht hpt => by
          have hslot : sameSlot s t = true := by simpa using hpt
          rw [sameSlot_sec hslot]
          exact mem_insKey_self ks s.«section»)

theorem recKeys_group_dedup (S : List Setting) :
    recKeys (groupBySection (dedupSettings S)) = recKeys (groupBySection S) := by
  unfold groupBySection
  rw [recKeys_foldl_recPush, recKeys_foldl_recPush]
  exact keysFold_dedup S (recKeys [])

/-! ## Walk congruence for map-equal pendings -/

theorem finalizeSection_relVal {B : List Line} {o o2 : Option (List Setting)}
    (h : relVal o o2) : finalizeSection B o = finalizeSection B o2 := by
  cases o with
  | none =>
      cases o2 with
      | none => rfl
      | some ss2 => simp [relVal] at h
  | some ss =>
      cases o2 with
      | none => simp [relVal] at h
      | some ss2 =>
          obtain ⟨hbm, hiff⟩ := h
          simp only [finalizeSection]
          by_cases hss : ss = []
          · have hss2 : ss2 = [] := hiff.mp hss
            simp [hss, hss2]
          · have hss2 : ss2 ≠ [] := fun h2 => hss (hiff.mpr h2)
            have he1 : ss.isEmpty = false := by simpa using hss
            have he2 : ss2.isEmpty = false := by simpa using hss2
            simp only [he1, he2, Bool.false_eq_true, if_false]
            rw [hbm]

theorem recKeys_recErase (r : Rec) (k : Line) :
    recKeys (recErase r k) = (recKeys r).erase k := by
  induction r with
  | nil => rfl
  | cons e rest ih =>
      obtain ⟨a, v⟩ := e
      by_cases hak : a = k
      · subst hak
        rw [recErase, if_pos rfl]
        simp [recKeys, List.erase_cons_head]
      · rw [recErase, if_neg hak]
        simp only [recKeys, List.map_cons] at ih ⊢
        rw [List.erase_cons_tail (by simpa using hak), ih]

theorem exists_recLookup_of_mem_keys {r : Rec} {k : Line} (h : k ∈ recKeys r) :
    ∃ v, recLookup r k = some v := by
  induction r with
  | nil => simp [recKeys] at h
  | cons e rest ih =>
      obtain ⟨a, v⟩ := e
      by_cases hak : a = k
      · exact ⟨v, by rw [recLookup, if_pos hak]⟩
      · simp only [recKeys, List.map_cons, List.mem_cons] at h
        rcases h with h | h
        · exact absurd h.symm hak
        · obtain ⟨w, hw⟩ := ih h
          exact ⟨w, by rw [recLookup, if_neg hak]; exact hw⟩

theorem recKeys_eq_nil_of_inv {P : Rec} {cur : Line}
    (hnd : NodupKeys P)
    (hinv : ∀ k ∈ recKeys P, k ≠ [] ∧ k = cur) (hcur : cur ≠ []) :
    recKeys (recErase P cur) = [] := by
  rw [List.eq_nil_iff_forall_not_mem]
  intro k hk
  have hk2 : k ∈ recKeys P := recKeys_recErase_subset P cur hk
  have := (hinv k hk2).2
  subst this
  exact notMem_recKeys_recErase_of_nodup hnd hk

/-- The walk emits the same lines for two pendings with the same section
skeleton and map-equal groups, provided every pending section is eventually
finalized (it is the open section or a future header). -/
theorem walk_cong :
    ∀ (rest : List Line) (P P2 : Rec) (cur : Line) (secL : List Line),
      NodupKeys P →
      recKeys P = recKeys P2 →
      (∀ n, relVal (recLookup P n) (recLookup P2 n)) →
      (∀ k ∈ recKeys P, k ≠ [] ∧ (k = cur ∨ ∃ l ∈ rest,
        isHeader (jsTrim l) = true ∧ headerName (jsTrim l) = k)) →
      walk P cur secL rest = walk P2 cur secL rest := by
  intro rest
  induction rest with
  | nil =>
      intro P P2 cur secL hnd hkeys hrel hinv
      have hinv2 : ∀ k ∈ recKeys P, k ≠ [] ∧ k = cur := by
        intro k hk
        obtain ⟨hne, hor⟩ := hinv k hk
        refine ⟨hne, ?_⟩
        rcases hor with hor | hor
        · exact hor
        · obtain ⟨l, hl, _⟩ := hor
          simp at hl
      rw [walk, walk]
      by_cases hc : cur.isEmpty
      · simp only [hc, if_true]
        have hcur : cur = [] := by simpa [List.isEmpty_iff] using hc
        have hPnil : P = [] := by
          apply List.map_eq_nil_iff.mp
          rw [List.eq_nil_iff_forall_not_mem]
          intro k hk
          obtain ⟨hne, heq⟩ := hinv2 k hk
          exact hne (heq.trans hcur)
        have hP2nil : P2 = [] := by
          apply List.map_eq_nil_iff.mp
          have : recKeys P2 = [] := by
            rw [← hkeys, hPnil]
            rfl
          exact this
        rw [hPnil, hP2nil]
      · simp only [hc, Bool.false_eq_true, if_false]
        have hcur : cur ≠ [] := by simpa [List.isEmpty_iff] using hc
        rw [finalizeSection_relVal (hrel cur)]
        have hE1 : recErase P cur = [] := by
          apply List.map_eq_nil_iff.mp
          exact recKeys_eq_nil_of_inv hnd hinv2 hcur
        have hE2 : recErase P2 cur = [] := by
          apply List.map_eq_nil_iff.mp
          show recKeys (recErase P2 cur) = []
          rw [recKeys_recErase, ← hkeys, ← recKeys_recErase]
          exact recKeys_eq_nil_of_inv hnd hinv2 hcur
        rw [hE1, hE2]
  | cons l rest2 ih =>
      intro P P2 cur secL hnd hkeys hrel hinv
      have hnd2 : NodupKeys P2 := by
        show (P2.map Prod.fst).Nodup
        have : recKeys P2 = recKeys P := hkeys.symm
        rw [show P2.map Prod.fst = recKeys P2 from rfl, this]
        exact hnd
      by_cases hh : isHeader (jsTrim l) = true
      · rw [walk, walk]
        simp only [hh, if_true]
        have hrec : walk (if cur.isEmpty then P else recErase P cur)
              (headerName (jsTrim l)) [] rest2 =
            walk (if cur.isEmpty then P2 else recErase P2 cur)
              (headerName (jsTrim l)) [] rest2 := by
          by_cases hc : cur.isEmpty
          · simp only [hc, if_true]
            refine ih P P2 _ [] hnd hkeys hrel ?_
            intro k hk
            obtain ⟨hne, hor⟩ := hinv k hk
            refine ⟨hne, ?_⟩
            rcases hor with hor | hor
            · exact absurd (hor.trans (by simpa [List.isEmpty_iff] using hc)) hne
            · obtain ⟨l2, hl2, hh2, hn2⟩ := hor
              rcases List.mem_cons.mp hl2 with hl2 | hl2
              · subst hl2
                exact Or.inl hn2.symm
              · exact Or.inr ⟨l2, hl2, hh2, hn2⟩
          · simp only [hc, Bool.false_eq_true, if_false]
            have hcur : cur ≠ [] := by simpa [List.isEmpty_iff] using hc
            refine ih (recErase P cur) (recErase P2 cur) _ []
              (nodupKeys_recErase cur hnd) ?_ ?_ ?_
            · rw [recKeys_recErase, recKeys_recErase, hkeys]
            · intro n
              by_cases hnc : n = cur
              · subst hnc
                rw [recLookup_recErase_self hnd, recLookup_recErase_self hnd2]
                trivial
              · rw [recLookup_recErase_ne (fun h => hnc h.symm),
                  recLookup_recErase_ne (fun h => hnc h.symm)]
                exact hrel n
            · intro k hk
              have hk2 : k ∈ recKeys P := recKeys_recErase_subset P cur hk
              obtain ⟨hne, hor⟩ := hinv k hk2
              refine ⟨hne, ?_⟩
              rcases hor with hor | hor
              · subst hor
                exact absurd hk (notMem_recKeys_recErase_of_nodup hnd)
              · obtain ⟨l2, hl2, hh2, hn2⟩ := hor
                rcases List.mem_cons.mp hl2 with hl2 | hl2
                · subst hl2
                  exact Or.inl hn2.symm
                · exact Or.inr ⟨l2, hl2, hh2, hn2⟩
        rw [hrec]
        by_cases hc : cur.isEmpty
        · simp only [hc, if_true]
        · simp only [hc, Bool.false_eq_true, if_false]
          rw [finalizeSection_relVal (hrel cur)]
      · have hh2 : isHeader (jsTrim l) = false := by simpa using hh
        rw [walk, walk]
        simp only [hh2, Bool.false_eq_true, if_false]
        have hinvr : ∀ k ∈ recKeys P, k ≠ [] ∧ (k = cur ∨ ∃ l2 ∈ rest2,
            isHeader (jsTrim l2) = true ∧ headerName (jsTrim l2) = k) := by
          intro k hk
          obtain ⟨hne, hor⟩ := hinv k hk
          refine ⟨hne, ?_⟩
          rcases hor with hor | hor
          · exact Or.inl hor
          · obtain ⟨l2, hl2, hh3, hn2⟩ := hor
            rcases List.mem_cons.mp hl2 with hl2 | hl2
            · subst hl2
              exact absurd hh3 (by simp [hh2])
            · exact Or.inr ⟨l2, hl2, hh3, hn2⟩
        by_cases hc : cur.isEmpty
        · simp only [hc, if_true]
          rw [ih P P2 cur secL hnd hkeys hrel hinvr]
        · simp only [hc, Bool.false_eq_true, if_false]
          exact ih P P2 cur (secL ++ [l]) hnd hkeys hrel hinvr

/-! # Claims -/

/-- C1 (amended).  Idempotence of the merge for well-formed settings lists:
when every desired setting has a nonempty section, a nonempty key made of
key characters and a value with a visible character, and no two settings
address the same `(section, key)` slot, applying the merge twice with the
same settings list yields the same line sequence as applying it once. -/
theorem c1_idempotence_amended (F : List Line) (S : List Setting)
    (hg : ∀ s ∈ S, goodSetting s = true)
    (hnd : (S.map (fun s => (s.«section», s.key))).Nodup) :
    updateConfigLines (updateConfigLines F S) S = updateConfigLines F S := by
  unfold updateConfigLines
  exact walk_idem F (groupBySection S) [] [] (nodupKeys_groupBySection S)
    (goodRec_groupBySection hg hnd) (fun _ => rfl) (by simp)

/-- C1 witness: a concrete well-formed settings list on a concrete file,
with both hypotheses discharged by evaluation. -/
theorem c1_witness :
    (∀ s ∈ ([⟨"chttpd".data, "require_valid_user".data, "true".data⟩,
             ⟨"couchdb".data, "max_document_size".data, "4294967296".data⟩] :
        List Setting), goodSetting s = true) ∧
    (([⟨"chttpd".data, "require_valid_user".data, "true".data⟩,
       ⟨"couchdb".data, "max_document_size".data, "4294967296".data⟩] :
        List Setting).map (fun s => (s.«section», s.key))).Nodup ∧
    updateConfigLines
        (updateConfigLines ["; preamble".data, "[chttpd]".data, "port = 5984".data]
          [⟨"chttpd".data, "require_valid_user".data, "true".data⟩,
           ⟨"couchdb".data, "max_document_size".data, "4294967296".data⟩])
        [⟨"chttpd".data, "require_valid_user".data, "true".data⟩,
         ⟨"couchdb".data, "max_document_size".data, "4294967296".data⟩] =
      updateConfigLines ["; preamble".data, "[chttpd]".data, "port = 5984".data]
        [⟨"chttpd".data, "require_valid_user".data, "true".data⟩,
         ⟨"couchdb".data, "max_document_size".data, "4294967296".data⟩] :=
  ⟨by decide, by decide,
    c1_idempotence_amended _ _ (by decide) (by decide)⟩

/-- C2.  Preservation (frame): every line of the original file that is not a
key-assignment line whose captured key is desired for the section
containing it — including comments, blank lines, section headers, and all
lines of sections with no desired settings — appears in the merged output
unchanged and in the same relative order (as a sublist of the output). -/
theorem c2_preservation (settings : List Setting) (fileLines : List Line) :
    List.Sublist (preservedLines settings fileLines)
      (updateConfigLines fileLines settings) := by
  have := @walk_frame (groupBySection settings) fileLines
    (groupBySection settings) [] []
    (fun n v h => h) (nodupKeys_groupBySection settings)
    (fun _ => rfl) (by simp)
  simpa [preservedLines, updateConfigLines] using this

/-- C4 (amended).  Last-occurrence-wins for duplicates, for sections present
in the target file: when every desired section has a nonempty name that
occurs as a header of the file, the merged output equals the output for
the settings list in which each `(section, key)` slot keeps its first
position and receives the value of its last occurrence (the overwrite
semantics of the working map).  For sections appended as new blocks the
property fails: every occurrence produces its own line there. -/
theorem c4_last_occurrence_amended (F : List Line) (S : List Setting)
    (hpres : ∀ s ∈ S, s.«section» ≠ [] ∧ ∃ l ∈ F,
      isHeader (jsTrim l) = true ∧ headerName (jsTrim l) = s.«section») :
    updateConfigLines F S = updateConfigLines F (dedupSettings S) := by
  unfold updateConfigLines
  apply walk_cong F (groupBySection S) (groupBySection (dedupSettings S)) [] []
  · exact nodupKeys_groupBySection S
  · exact (recKeys_group_dedup S).symm
  · intro n
    rw [groupBySection_lookup, groupBySection_lookup, dedupSettings_filter_sec n S]
    by_cases hf : S.filter (fun s => decide (s.«section» = n)) = []
    · rw [if_pos hf, if_pos (by rw [hf, dedupSettings])]
      trivial
    · have hf2 : dedupSettings (S.filter (fun s => decide (s.«section» = n))) ≠ [] :=
        fun h => hf (dedupSettings_eq_nil_iff.mp h)
      rw [if_neg hf, if_neg hf2]
      refine ⟨?_, ?_⟩
      · exact (@buildMap_dedupSettings n _
          (fun t ht => by simpa using (List.mem_filter.mp ht).2)).symm
      · exact ⟨fun h => absurd h hf, fun h => absurd h hf2⟩
  · intro k hk
    obtain ⟨ss, hss⟩ := exists_recLookup_of_mem_keys hk
    rw [groupBySection_lookup] at hss
    by_cases hf : S.filter (fun s => decide (s.«section» = k)) = []
    · rw [if_pos hf] at hss
      exact absurd hss (by simp)
    · obtain ⟨s0, hs0⟩ := List.exists_mem_of_ne_nil _ hf
      have hs0f := List.mem_filter.mp hs0
      have hs0k : s0.«section» = k := by simpa using hs0f.2
      obtain ⟨hne, l, hl, hhl, hname⟩ := hpres s0 hs0f.1
      exact ⟨hs0k ▸ hne, Or.inr ⟨l, hl, hhl, hs0k ▸ hname⟩⟩

/-- C4 witness: duplicates on a section present in the file collapse to the
last value. -/
theorem c4_witness :
    (∀ s ∈ ([⟨"a".data, "k".data, "1".data⟩, ⟨"a".data, "k".data, "2".data⟩] :
        List Setting), s.«section» ≠ [] ∧ ∃ l ∈ (["[a]".data, "k = 0 ".data] : List Line),
      isHeader (jsTrim l) = true ∧ headerName (jsTrim l) = s.«section») ∧
    updateConfigLines ["[a]".data, "k = 0 ".data]
        [⟨"a".data, "k".data, "1".data⟩, ⟨"a".data, "k".data, "2".data⟩] =
      updateConfigLines ["[a]".data, "k = 0 ".data]
        (dedupSettings [⟨"a".data, "k".data, "1".data⟩,
          ⟨"a".data, "k".data, "2".data⟩]) :=
  ⟨by decide,
    c4_last_occurrence_amended ["[a]".data, "k = 0 ".data]
      [⟨"a".data, "k".data, "1".data⟩, ⟨"a".data, "k".data, "2".data⟩]
      (by decide)⟩

/-- C5.  Round-trip extraction: for a script whose content contains the line
`curl -X PUT "<url>/_node/nonode@nohost/_config/chttpd/require_valid_user" -d '"true"'`,
`parseScript` extracts exactly the setting
`{section: chttpd, key: require_valid_user, value: true}` for that line. -/
theorem c5_round_trip_extraction :
    parseScript ("#!/bin/bash".data ++ ['\n'] ++
        "curl -X PUT \"http://localhost:5984/_node/nonode@nohost/_config/chttpd/require_valid_user\" -d ".data ++
        [sq, '"'] ++ "true".data ++ ['"', sq] ++ ['\n'] ++ "echo done".data) =
      [⟨"chttpd".data, "require_valid_user".data, "true".data⟩] := by
  decide

/-- C6.  Commented-key update: a section containing `;max_document_size = 0`
merged with the desired setting `(couchdb, max_document_size, 4294967296)`
rewrites that line to exactly `max_document_size = 4294967296`, dropping
the comment marker, and does not append the key again at the end of the
section. -/
theorem c6_commented_key_update :
    updateConfigLines
        ["[couchdb]".data, ";max_document_size = 0".data, "other = 1 ".data]
        [⟨"couchdb".data, "max_document_size".data, "4294967296".data⟩] =
      ["[couchdb]".data, "max_document_size = 4294967296".data, "other = 1 ".data] := by
  decide

/-- C1 counterexample.  The merge is not idempotent for every settings list:
with two settings for the same absent slot, one application appends
`k = 1` and `k = 2`, while a second application rewrites the first of those
lines, giving `k = 2` twice. -/
theorem c1_counterexample :
    updateConfigLines
        (updateConfigLines [[]]
          [⟨"a".data, "k".data, "1".data⟩, ⟨"a".data, "k".data, "2".data⟩])
        [⟨"a".data, "k".data, "1".data⟩, ⟨"a".data, "k".data, "2".data⟩] ≠
      updateConfigLines [[]]
        [⟨"a".data, "k".data, "1".data⟩, ⟨"a".data, "k".data, "2".data⟩] := by
  decide

/-- C3 counterexample.  A recognized line whose `_config` path segment is
`chttpd/sub/key` yields the setting with key `sub`, not the full remainder
`sub/key`: the JavaScript split with limit 2 drops everything after the
second slash. -/
theorem c3_counterexample :
    lineSetting ("curl -X PUT \"http://h:5984/_node/nonode@nohost/_config/chttpd/sub/key\" -d ".data ++
        [sq, '"'] ++ "true".data ++ ['"', sq]) =
      some ⟨"chttpd".data, "sub".data, "true".data⟩ ∧
    lineSetting ("curl -X PUT \"http://h:5984/_node/nonode@nohost/_config/chttpd/sub/key\" -d ".data ++
        [sq, '"'] ++ "true".data ++ ['"', sq]) ≠
      some ⟨"chttpd".data, "sub/key".data, "true".data⟩ := by
  constructor
  · decide
  · decide

/-- C3 (amended).  Extractor key splitting: for every recognized script line
whose `_config` path segment contains more than one slash, the extracted
setting has section equal to the text before the first slash and key equal
to the text between the first and second slash only — the remainder after
the second slash is dropped by the split with limit 2. -/
theorem c3_split_amended (line : Line) (fk v sec k1 krest : List Char)
    (hx : findCurl (jsTrim line) = some (fk, v))
    (hfk : fk = sec ++ '/' :: (k1 ++ '/' :: krest))
    (hsec : '/' ∉ sec) (hk1 : '/' ∉ k1) :
    lineSetting line = some ⟨sec, k1, v⟩ := by
  unfold lineSetting
  rw [hx]
  subst hfk
  simp only [settingOfFullKey, splitSlash_append hsec, splitSlash_append hk1]
  rfl

/-- C3 witness: the counterexample line applied through the amended theorem. -/
theorem c3_witness :
    findCurl (jsTrim ("curl -X PUT \"http://h:5984/_node/nonode@nohost/_config/chttpd/sub/key2\" -d ".data ++
        [sq, '"'] ++ "on".data ++ ['"', sq])) =
      some ("chttpd/sub/key2".data, "on".data) ∧
    lineSetting ("curl -X PUT \"http://h:5984/_node/nonode@nohost/_config/chttpd/sub/key2\" -d ".data ++
        [sq, '"'] ++ "on".data ++ ['"', sq]) =
      some ⟨"chttpd".data, "sub".data, "on".data⟩ :=
  ⟨by decide,
    c3_split_amended _ "chttpd/sub/key2".data "on".data "chttpd".data "sub".data
      "key2".data (by decide) (by decide) (by decide) (by decide)⟩

/-- C4 counterexample.  Keeping only the last of two duplicate settings does
not reproduce the merged output when the section is appended as a new
block: both occurrences produce their own lines there. -/
theorem c4_counterexample :
    updateConfigLines [[]]
        [⟨"a".data, "k".data, "1".data⟩, ⟨"a".data, "k".data, "2".data⟩] ≠
      updateConfigLines [[]] [⟨"a".data, "k".data, "2".data⟩] := by
  decide

/-- C7.  New-section creation: a desired section whose name matches no
header of the target file is appended after all original content and all
finalized existing sections, as a block consisting of the `[section]`
header followed by one `key = value` line per desired setting of that
section, in list order. -/
theorem c7_new_section (F : List Line) (S : List Setting) (n : Line)
    (ss : List Setting)
    (hfil : S.filter (fun s => decide (s.«section» = n)) = ss)
    (hss : ss ≠ [])
    (habs : ∀ l ∈ F, isHeader (jsTrim l) = true → headerName (jsTrim l) ≠ n) :
    ∃ A B : List Line,
      updateConfigLines F S =
        walkMain (groupBySection S) [] [] F ++
          (A ++ (headerLine n :: ss.map settingLine) ++ B) := by
  have hlookG : recLookup (groupBySection S) n = some ss := by
    rw [groupBySection_lookup, hfil, if_neg hss]
  have hpend : recLookup (pendAfter (groupBySection S) [] F) n = some ss := by
    rw [pendAfter_lookup F (groupBySection S) [] (fun _ => rfl)
      (fun l hl hh hname => absurd hname (habs l hl hh))]
    exact hlookG
  have hmemF : (n, ss) ∈ forInOrder (pendAfter (groupBySection S) [] F) :=
    (forInOrder_perm _).symm.subset (recLookup_mem hpend)
  obtain ⟨Q1, Q2, hsplit⟩ := List.append_of_mem hmemF
  refine ⟨Q1.flatMap blockOf, Q2.flatMap blockOf, ?_⟩
  rw [updateConfigLines, walk_decomp, appendNew, hsplit]
  rw [List.flatMap_append, List.flatMap_cons]
  have hblock : blockOf (n, ss) = headerLine n :: ss.map settingLine := by
    have : ss.isEmpty = false := by simpa using hss
    simp [blockOf, this]
  rw [hblock]
  simp [List.append_assoc]

/-- C7 witness: a concrete file without the `foo` section receives the
appended block for it. -/
theorem c7_witness :
    (([⟨"foo".data, "bar".data, "baz".data⟩] : List Setting).filter
        (fun s => decide (s.«section» = "foo".data)) =
      [⟨"foo".data, "bar".data, "baz".data⟩]) ∧
    (∀ l ∈ (["[couchdb]".data, "x = 1 ".data] : List Line),
      isHeader (jsTrim l) = true → headerName (jsTrim l) ≠ "foo".data) ∧
    (∃ A B : List Line,
      updateConfigLines ["[couchdb]".data, "x = 1 ".data]
          [⟨"foo".data, "bar".data, "baz".data⟩] =
        walkMain (groupBySection [⟨"foo".data, "bar".data, "baz".data⟩]) [] []
            ["[couchdb]".data, "x = 1 ".data] ++
          (A ++ (headerLine "foo".data ::
            ([⟨"foo".data, "bar".data, "baz".data⟩] : List Setting).map settingLine) ++ B)) :=
  ⟨by decide, by decide,
    c7_new_section ["[couchdb]".data, "x = 1 ".data]
      [⟨"foo".data, "bar".data, "baz".data⟩] "foo".data
      [⟨"foo".data, "bar".data, "baz".data⟩]
      (by decide) (by decide) (by decide)⟩

/-- C9.  Duplicate section headers: desired settings are applied only
within the first block of a repeated section name — its finalization also
removes the section from the outstanding mapping — and every line of the
later same-named block is emitted verbatim. -/
theorem c9_duplicate_headers (A B C : List Line) (n : Line) (S : List Setting)
    (hn : n ≠ [])
    (hA : ∀ l ∈ A, isHeader (jsTrim l) = false)
    (hB : ∀ l ∈ B, isHeader (jsTrim l) = false)
    (hC : ∀ l ∈ C, isHeader (jsTrim l) = false) :
    updateConfigLines (A ++ headerLine n :: (B ++ headerLine n :: C)) S =
      A ++ headerLine n ::
        (finalizeSection B (recLookup (groupBySection S) n) ++
          headerLine n :: (C ++ appendNew (recErase (groupBySection S) n))) := by
  have hnd := nodupKeys_groupBySection S
  rw [updateConfigLines, walk_preamble A hA, walk]
  rw [jsTrim_headerLine]
  simp only [isHeader_headerLine, if_true, headerName_headerLine,
    List.isEmpty_nil, if_true, List.nil_append]
  rw [walk_append_nonheaders hn B [] hB, List.nil_append, walk]
  rw [jsTrim_headerLine]
  have hce : n.isEmpty = false := by
    cases n
    · exact absurd rfl hn
    · rfl
  simp only [isHeader_headerLine, if_true, headerName_headerLine, hce,
    Bool.false_eq_true, if_false]
  have hbufC := @walk_append_nonheaders (recErase (groupBySection S) n) n [] hn C [] hC
  rw [List.append_nil] at hbufC
  rw [hbufC, List.nil_append, walk]
  simp only [hce, Bool.false_eq_true, if_false]
  rw [recLookup_recErase_self hnd, recErase_recErase_of_nodup hnd]
  simp [finalizeSection]

/-- C9 witness: a file with two `[a]` blocks; the desired key is applied in
the first block only, the second block is copied verbatim. -/
theorem c9_witness :
    ("a".data ≠ ([] : Line)) ∧
    updateConfigLines
        (["; top".data] ++ headerLine "a".data ::
          (["x = 1 ".data] ++ headerLine "a".data :: ["k = 9 ".data]))
        [⟨"a".data, "k".data, "7".data⟩] =
      ["; top".data] ++ headerLine "a".data ::
        (finalizeSection ["x = 1 ".data]
            (recLookup (groupBySection [⟨"a".data, "k".data, "7".data⟩]) "a".data) ++
          headerLine "a".data :: (["k = 9 ".data] ++
            appendNew (recErase (groupBySection [⟨"a".data, "k".data, "7".data⟩])
              "a".data))) :=
  ⟨by decide,
    c9_duplicate_headers ["; top".data] ["x = 1 ".data] ["k = 9 ".data] "a".data
      [⟨"a".data, "k".data, "7".data⟩]
      (by decide) (by decide) (by decide) (by decide)⟩

/-- C10.  Whitespace-dependent matching: an assignment-like line in a
targeted section that the key regex fails to recognize (for example
`key=value` with no whitespace after the separator) is emitted unchanged,
and the desired key, never being consumed, is additionally appended as a
fresh `key = value` line at the end of the section. -/
theorem c10_unrecognized_assignment (ss : List Setting) (k : Line) (s : Setting)
    (pre post : List Line) (line : Line)
    (hss : ss ≠ [])
    (hget : mapGet (buildMap ss) k = some s)
    (hline : findKey (jsTrim line) = none)
    (hpre : ∀ l ∈ pre, findKey (jsTrim l) ≠ some k)
    (hpost : ∀ l ∈ post, findKey (jsTrim l) ≠ some k) :
    ∃ A C : List Line,
      finalizeSection (pre ++ line :: post) (some ss) = A ++ line :: C ∧
        (k ++ eqSep ++ s.value) ∈ C := by
  have hss2 : ss.isEmpty = false := by simpa using hss
  simp only [finalizeSection, hss2, Bool.false_eq_true, if_false]
  rw [processSec_append, processSec_cons_none hline]
  refine ⟨(processSec (buildMap ss) pre).1,
    (processSec (processSec (buildMap ss) pre).2 post).1 ++
      ((processSec (processSec (buildMap ss) pre).2 post).2.map
        (fun e => e.2.key ++ eqSep ++ e.2.value)), by simp, ?_⟩
  have hstable : mapGet (processSec (processSec (buildMap ss) pre).2 post).2 k =
      some s := by
    rw [processSec_get_stable post _ hpost, processSec_get_stable pre _ hpre]
    exact hget
  have hmem : (k, s) ∈ (processSec (processSec (buildMap ss) pre).2 post).2 :=
    mapGet_mem hstable
  have hkey : s.key = k := by
    have hmem2 : (k, s) ∈ buildMap ss :=
      processSec_rem_subset pre (buildMap ss)
        (processSec_rem_subset post _ hmem)
    exact buildMap_keyInv (k, s) hmem2
  refine List.mem_append_right _ ?_
  refine List.mem_map.mpr ⟨(k, s), hmem, ?_⟩
  rw [hkey]

/-- C10 witness: `k=7` is not recognized, survives unchanged, and `k = 7`
is appended. -/
theorem c10_witness :
    findKey (jsTrim "k=7".data) = none ∧
    (∃ A C : List Line,
      finalizeSection ([] ++ "k=7".data :: [])
          (some [⟨"a".data, "k".data, "7".data⟩]) = A ++ "k=7".data :: C ∧
        ("k".data ++ eqSep ++ "7".data) ∈ C) :=
  ⟨by decide,
    c10_unrecognized_assignment [⟨"a".data, "k".data, "7".data⟩] "k".data
      ⟨"a".data, "k".data, "7".data⟩ [] [] "k=7".data
      (by decide) (by decide) (by decide) (by decide) (by decide)⟩

/-- C8.  Error behaviour and target-file atomicity: the extractor fails
exactly when the script file is missing, the merger fails exactly when the
target file is missing, and a run in which either error is raised leaves
the filesystem, in particular the target file, completely unchanged. -/
theorem c8_error_atomicity (fs : Fs) (sp cp : List Char) (settings : List Setting) :
    (parseScriptRun fs sp = Except.error () ↔ fsRead fs sp = none) ∧
    (updateConfigRun fs cp settings = Except.error () ↔ fsRead fs cp = none) ∧
    ((fsRead fs sp = none ∨ fsRead fs cp = none) → runSetup fs sp cp = fs) :=
  ⟨parseScriptRun_error_iff fs sp, updateConfigRun_error_iff fs cp settings,
    runSetup_frame fs sp cp⟩

/-- C8 witness: with a filesystem holding only the target file, the script
read fails and the run leaves the filesystem unchanged. -/
theorem c8_witness :
    fsRead [("cfg".data, "x".data)] "script".data = none ∧
    runSetup [("cfg".data, "x".data)] "script".data "cfg".data =
      [("cfg".data, "x".data)] :=
  ⟨by decide,
    (c8_error_atomicity [("cfg".data, "x".data)] "script".data "cfg".data []).2.2
      (Or.inl (by decide))⟩

end CouchSetup
